import Mathlib

/-!
# Surf Coffee route planner: deduplication, greedy route builder, 2-opt

Shallow embedding of the algorithmic core of `src/script.js`:

* `loadSurfPoints` (the bucket pass over parsed rows), `entryScore`,
  `shouldReplace`, `filterClosePoints`;
* `computeRoute` with its inner `buildRoute`, `routeDistance`, `twoOpt`,
  `twoOptSwap`.

Coordinates are the numbers that pass the `Number.isNaN` check of
`loadSurfPoints`: rationals, or plus or minus `Infinity`.  Scores are rationals.
The two great-circle functions `haversine` (kilometres) and `haversineMeters`
(metres) are trigonometric and are taken as parameters of every definition that
calls them.  The JavaScript value `Infinity` of a limit or of a running best
distance is `none`.

The file has two readings of the distance functions.  In the first their values
are numbers of an arbitrary linearly ordered field `K` (the rationals for
evaluation, the reals for the mathematical great-circle distance).  In the
second (`Distance K`, definitions with the suffix `N`) a value can also be NaN,
as it is in floating point for an infinite coordinate; comparisons with NaN are
false and sums with NaN are NaN.
-/

namespace SurfRoute

/-! ## Data model -/

/-- A JavaScript number that is not NaN: what `Number.parseFloat` returns for a
cell that passes the `Number.isNaN` check of `loadSurfPoints`.  The cell
`Infinity` parses to `posInf`. -/
inductive JsNumber where
  | finite (value : ℚ)
  | posInf
  | negInf
deriving DecidableEq, Repr

/-- Latitude and longitude in degrees, the `coords` array of a point. -/
abbrev Coords := JsNumber × JsNumber

/-- The coordinates with the finite latitude `lat` and longitude `lon`. -/
def deg (lat lon : ℚ) : Coords := (JsNumber.finite lat, JsNumber.finite lon)

/-- Both coordinates are finite numbers. -/
def Coords.isFinite (c : Coords) : Bool :=
  match c with
  | (JsNumber.finite _, JsNumber.finite _) => true
  | _ => false

/-- The latitude of finite coordinates (0 when it is infinite). -/
def Coords.latitude (c : Coords) : ℚ :=
  match c.1 with
  | JsNumber.finite lat => lat
  | _ => 0

/-- An entry of `surfPoints`: the object `{ name, address, coords }`. -/
structure Point where
  name : String
  address : String
  coords : Coords
deriving DecidableEq, Repr

/-- An element of `points` in `computeRoute`: the object `{ ...point, index }`. -/
structure RoutePoint where
  name : String
  address : String
  coords : Coords
  index : Nat
deriving DecidableEq, Repr

/-- The object `{ ...point, index }` built by the `surfPoints.map` callback. -/
def withIndex (point : Point) (index : Nat) : RoutePoint :=
  ⟨point.name, point.address, point.coords, index⟩

/-- The array `points` of `computeRoute`: `surfPoints.map((point, index) => ...)`. -/
def indexPoints (surfPoints : List Point) : List RoutePoint :=
  surfPoints.enum.map (fun ip => withIndex ip.2 ip.1)

/-! ## Route builder (`computeRoute`, inner `buildRoute`) -/

section RouteBuilder

variable {K : Type} [LinearOrderedField K]

/-- The test `dist <= limitKm` for a `dist` that is a number; the limit
`Infinity` is `none`.  For a `dist` that can be NaN see `scanStepN`. -/
def withinLimit (dist : K) : Option K → Bool
  | none => true
  | some limitKm => decide (dist ≤ limitKm)

/-- The test `dist < bestDist`; the initial `bestDist = Infinity` is `none`. -/
def belowBest (dist : K) : Option K → Bool
  | none => true
  | some bestDist => decide (dist < bestDist)

/-- One call of the `remaining.forEach` callback of `buildRoute`: the state is
`(bestPoint, bestDist)`.  An index outside `points` cannot occur (the set only
holds indices of `points`); the state is then left as it is. -/
def scanStep (haversine : Coords → Coords → K) (points : List RoutePoint)
    (current : Coords) (limitKm : Option K)
    (best : Option RoutePoint × Option K) (idx : Nat) : Option RoutePoint × Option K :=
  match points[idx]? with
  | none => best
  | some point =>
    let dist := haversine current point.coords
    if withinLimit dist limitKm && belowBest dist best.2 then (some point, some dist)
    else best

/-- The whole `remaining.forEach` scan, from `bestPoint = null`,
`bestDist = Infinity`; a `Set` is iterated in insertion order. -/
def scanRemaining (haversine : Coords → Coords → K) (points : List RoutePoint)
    (current : Coords) (limitKm : Option K) (remaining : List Nat) :
    Option RoutePoint × Option K :=
  remaining.foldl (scanStep haversine points current limitKm) (none, none)

/-- Entry `idx` of `points` carries `index = idx`. -/
theorem indexPoints_getElem? (surfPoints : List Point) (idx : Nat) :
    (indexPoints surfPoints)[idx]? = (surfPoints[idx]?).map (fun p => withIndex p idx) := by
  unfold indexPoints
  rw [List.getElem?_map, List.getElem?_enum]
  cases surfPoints[idx]? <;> rfl

/-- A point found by the scan is the entry of `points` at one of the scanned
indices. -/
theorem scan_foldl_mem (haversine : Coords → Coords → K) (points : List RoutePoint)
    (current : Coords) (limitKm : Option K) (remaining : List Nat)
    (best : Option RoutePoint × Option K) (p : RoutePoint)
    (h : (remaining.foldl (scanStep haversine points current limitKm) best).1 = some p) :
    best.1 = some p ∨ ∃ idx ∈ remaining, points[idx]? = some p := by
  induction remaining generalizing best with
  | nil => exact Or.inl h
  | cons i rest ih =>
    rw [List.foldl_cons] at h
    rcases ih _ h with h1 | ⟨idx, hmem, hget⟩
    · unfold scanStep at h1
      cases hp : points[i]? with
      | none => rw [hp] at h1; exact Or.inl h1
      | some q =>
        rw [hp] at h1
        by_cases hc : (withinLimit (haversine current q.coords) limitKm
            && belowBest (haversine current q.coords) best.2) = true
        · simp only [hc, if_true] at h1
          refine Or.inr ⟨i, List.mem_cons_self _ _, ?_⟩
          rw [hp]; exact h1
        · simp only [hc] at h1
          exact Or.inl h1
    · exact Or.inr ⟨idx, List.mem_cons_of_mem _ hmem, hget⟩

/-- The `index` of the point chosen by a scan is one of the scanned indices. -/
theorem scanRemaining_index_mem (haversine : Coords → Coords → K) (surfPoints : List Point)
    (current : Coords) (limitKm : Option K) (remaining : List Nat) (p : RoutePoint)
    (h : (scanRemaining haversine (indexPoints surfPoints) current limitKm remaining).1
      = some p) :
    p.index ∈ remaining := by
  rcases scan_foldl_mem haversine _ current limitKm remaining (none, none) p h with h1 | ⟨idx, hmem, hget⟩
  · cases h1
  · rw [indexPoints_getElem?] at hget
    cases hs : surfPoints[idx]? with
    | none => rw [hs] at hget; cases hget
    | some q =>
      rw [hs] at hget
      simp only [Option.map_some', Option.some.injEq] at hget
      rw [← hget]
      exact hmem

/-- The `while (remaining.size)` loop of `buildRoute`.  `remaining` is the set of
unvisited indices in insertion order, `current` the coordinates of the current
position; every iteration deletes one index of the set. -/
def buildLoop (haversine : Coords → Coords → K) (surfPoints : List Point)
    (limitKm : Option K) (remaining : List Nat) (route : List RoutePoint)
    (current : Coords) : List RoutePoint :=
  if remaining = [] then route
  else
    match h : (scanRemaining haversine (indexPoints surfPoints) current limitKm remaining).1 with
    | none => route
    | some bestPoint =>
      buildLoop haversine surfPoints limitKm (remaining.erase bestPoint.index)
        (route ++ [bestPoint]) bestPoint.coords
termination_by remaining.length
decreasing_by
  have hmem := scanRemaining_index_mem haversine surfPoints current limitKm remaining bestPoint h
  rw [List.length_erase_of_mem hmem]
  have hpos : 0 < remaining.length := List.length_pos_of_mem hmem
  omega

/-- The closure `buildRoute(limitKm)` of `computeRoute(startCoords)`. -/
def buildRoute (haversine : Coords → Coords → K) (surfPoints : List Point)
    (startCoords : Coords) (limitKm : Option K) : List RoutePoint :=
  buildLoop haversine surfPoints limitKm
    ((indexPoints surfPoints).map (fun p => p.index)) [] startCoords

end RouteBuilder

/-! ## Route optimiser (`routeDistance`, `twoOptSwap`, `twoOpt`) -/

section RouteOptimizer

variable {K : Type} [LinearOrderedField K]

/-- The function `twoOptSwap(route, i, k)`: `route.slice(0, i + 1)`, then
`route.slice(i + 1, k + 1)` reversed, then `route.slice(k + 1)`. -/
def twoOptSwap (route : List RoutePoint) (i k : Nat) : List RoutePoint :=
  let newRoute := route.take (i + 1)
  let reversedSegment := ((route.take (k + 1)).drop (i + 1)).reverse
  let tail := route.drop (k + 1)
  newRoute ++ (reversedSegment ++ tail)

/-- The function `routeDistance(route, startCoords)`: `0` for an empty route,
else the leg from the start to `route[0]` plus the legs `route[i]` to
`route[i + 1]`, added from left to right. -/
def routeDistance (haversine : Coords → Coords → K) (route : List RoutePoint)
    (startCoords : Coords) : K :=
  match route with
  | [] => 0
  | first :: _ =>
    (route.zip route.tail).foldl
      (fun distance leg => distance + haversine leg.1.coords leg.2.coords)
      (haversine startCoords first.coords)

/-- The body of the inner `for` loop of `twoOpt` at the pair `(i, k)`; the state
is `(bestRoute, improved)`. -/
def twoOptInner (haversine : Coords → Coords → K) (startCoords : Coords) (i : Nat)
    (state : List RoutePoint × Bool) (k : Nat) : List RoutePoint × Bool :=
  let newRoute := twoOptSwap state.1 i k
  let currentDistance := routeDistance haversine state.1 startCoords
  let newDistance := routeDistance haversine newRoute startCoords
  if newDistance + 0.001 < currentDistance then (newRoute, true) else state

/-- The inner loop `for (k = i + 2; k < bestRoute.length; k += 1)`.  A swap
keeps the length of `bestRoute`, so the bound is the length on entry. -/
def twoOptOuter (haversine : Coords → Coords → K) (startCoords : Coords)
    (state : List RoutePoint × Bool) (i : Nat) : List RoutePoint × Bool :=
  (List.range' (i + 2) (state.1.length - (i + 2))).foldl
    (twoOptInner haversine startCoords i) state

/-- One run of the body of `while (improved)`: `improved = false`, then the
loop `for (i = 0; i < bestRoute.length - 2; i += 1)`.  Returns `bestRoute` and
`improved` as they stand at the end of the pass. -/
def twoOptPass (haversine : Coords → Coords → K) (startCoords : Coords)
    (bestRoute : List RoutePoint) : List RoutePoint × Bool :=
  (List.range (bestRoute.length - 2)).foldl
    (twoOptOuter haversine startCoords) (bestRoute, false)

/-- Number of orderings of `route` that are strictly shorter than `route`; the
quantity that every improving pass of `twoOpt` lowers. -/
def shorterCount (haversine : Coords → Coords → K) (startCoords : Coords)
    (route : List RoutePoint) : Nat :=
  route.permutations.countP
    (fun p => decide (routeDistance haversine p startCoords
      < routeDistance haversine route startCoords))

/-- A segment reversal between positions `i < k` reorders the route. -/
theorem twoOptSwap_perm (route : List RoutePoint) (i k : Nat) (hik : i ≤ k) :
    (twoOptSwap route i k).Perm route := by
  unfold twoOptSwap
  have hsplit : (route.take (k + 1)).drop (i + 1) ++ route.drop (k + 1)
      = route.drop (i + 1) := by
    conv_rhs => rw [← List.take_append_drop (k + 1) route]
    rw [List.drop_append_eq_append_drop]
    congr 1
    by_cases hlen : k + 1 ≤ route.length
    · rw [List.length_take, Nat.min_eq_left hlen]
      have h0 : i + 1 - (k + 1) = 0 := by omega
      rw [h0, List.drop_zero]
    · rw [List.drop_eq_nil_of_le (by omega), List.drop_nil]
  have hrev : (((route.take (k + 1)).drop (i + 1)).reverse ++ route.drop (k + 1)).Perm
      (route.drop (i + 1)) := by
    rw [← hsplit]
    exact List.Perm.append_right _ (List.reverse_perm _)
  calc route.take (i + 1) ++ (((route.take (k + 1)).drop (i + 1)).reverse ++ route.drop (k + 1))
      |>.Perm (route.take (i + 1) ++ route.drop (i + 1)) := List.Perm.append_left _ hrev
    _ = route := List.take_append_drop _ _

/-- What every step of a pass keeps, relative to the route `r` the pass began
with: the state holds an ordering of `r`, not longer than `r`, and strictly
shorter once `improved` is set. -/
def PassInv (haversine : Coords → Coords → K) (startCoords : Coords)
    (r : List RoutePoint) (state : List RoutePoint × Bool) : Prop :=
  state.1.Perm r
    ∧ routeDistance haversine state.1 startCoords ≤ routeDistance haversine r startCoords
    ∧ (state.2 = true →
        routeDistance haversine state.1 startCoords < routeDistance haversine r startCoords)

theorem twoOptInner_inv (haversine : Coords → Coords → K) (startCoords : Coords)
    (r : List RoutePoint) (i k : Nat) (hik : i ≤ k) (state : List RoutePoint × Bool)
    (h : PassInv haversine startCoords r state) :
    PassInv haversine startCoords r (twoOptInner haversine startCoords i state k) := by
  unfold twoOptInner
  obtain ⟨hperm, hle, hlt⟩ := h
  simp only
  split
  · rename_i hadopt
    have heps : (0 : K) < 0.001 := by norm_num
    have hless : routeDistance haversine (twoOptSwap state.1 i k) startCoords
        < routeDistance haversine state.1 startCoords := by linarith
    exact ⟨(twoOptSwap_perm state.1 i k hik).trans hperm, le_of_lt (lt_of_lt_of_le hless hle),
      fun _ => lt_of_lt_of_le hless hle⟩
  · exact ⟨hperm, hle, hlt⟩

theorem twoOptInner_foldl_inv (haversine : Coords → Coords → K) (startCoords : Coords)
    (r : List RoutePoint) (i : Nat) (ks : List Nat) (hks : ∀ k ∈ ks, i ≤ k)
    (state : List RoutePoint × Bool) (h : PassInv haversine startCoords r state) :
    PassInv haversine startCoords r (ks.foldl (twoOptInner haversine startCoords i) state) := by
  induction ks generalizing state with
  | nil => exact h
  | cons k rest ih =>
    rw [List.foldl_cons]
    exact ih (fun k2 hk2 => hks k2 (List.mem_cons_of_mem _ hk2)) _
      (twoOptInner_inv haversine startCoords r i k (hks k (List.mem_cons_self _ _)) state h)

theorem twoOptOuter_inv (haversine : Coords → Coords → K) (startCoords : Coords)
    (r : List RoutePoint) (i : Nat) (state : List RoutePoint × Bool)
    (h : PassInv haversine startCoords r state) :
    PassInv haversine startCoords r (twoOptOuter haversine startCoords state i) := by
  unfold twoOptOuter
  apply twoOptInner_foldl_inv haversine startCoords r i _ _ state h
  intro k hk
  rw [List.mem_range'_1] at hk
  omega

theorem twoOptOuter_foldl_inv (haversine : Coords → Coords → K) (startCoords : Coords)
    (r : List RoutePoint) (is : List Nat) (state : List RoutePoint × Bool)
    (h : PassInv haversine startCoords r state) :
    PassInv haversine startCoords r (is.foldl (twoOptOuter haversine startCoords) state) := by
  induction is generalizing state with
  | nil => exact h
  | cons i rest ih =>
    rw [List.foldl_cons]
    exact ih _ (twoOptOuter_inv haversine startCoords r i state h)

/-- A pass returns an ordering of its input, not longer than the input, and
strictly shorter when it reports an improvement. -/
theorem twoOptPass_inv (haversine : Coords → Coords → K) (startCoords : Coords)
    (r : List RoutePoint) :
    PassInv haversine startCoords r (twoOptPass haversine startCoords r) := by
  unfold twoOptPass
  apply twoOptOuter_foldl_inv
  exact ⟨List.Perm.refl _, le_refl _, fun h => by cases h⟩

theorem countP_lt_of_imp {α : Type} (p q : α → Bool) (l : List α)
    (hpq : ∀ x ∈ l, p x = true → q x = true) (a : α) (ha : a ∈ l)
    (hqa : q a = true) (hpa : p a = false) : l.countP p < l.countP q := by
  induction l with
  | nil => cases ha
  | cons x rest ih =>
    have hmono : rest.countP p ≤ rest.countP q :=
      List.countP_mono_left (fun y hy hp => hpq y (List.mem_cons_of_mem _ hy) hp)
    rw [List.countP_cons, List.countP_cons]
    rcases List.mem_cons.mp ha with hax | harest
    · subst hax
      simp only [hqa, hpa, if_true]
      simp only [Bool.false_eq_true, if_false]
      omega
    · have hrec := ih (fun y hy hp => hpq y (List.mem_cons_of_mem _ hy) hp) harest
      by_cases hpx : p x = true
      · have hqx := hpq x (List.mem_cons_self _ _) hpx
        simp only [hpx, hqx, if_true]
        omega
      · have hpf : (if p x = true then 1 else 0) = 0 := if_neg hpx
        rw [hpf]
        omega

/-- A strictly shorter ordering of the same points has fewer orderings below it. -/
theorem shorterCount_lt (haversine : Coords → Coords → K) (startCoords : Coords)
    (r r2 : List RoutePoint) (hperm : r2.Perm r)
    (hlt : routeDistance haversine r2 startCoords < routeDistance haversine r startCoords) :
    shorterCount haversine startCoords r2 < shorterCount haversine startCoords r := by
  unfold shorterCount
  rw [List.Perm.countP_eq _ (List.Perm.permutations hperm)]
  apply countP_lt_of_imp _ _ _ _ r2
  · exact List.mem_permutations.mpr hperm
  · simpa using hlt
  · simp
  · intro x _ hx
    simp only [decide_eq_true_eq] at hx ⊢
    exact lt_trans hx hlt

/-- The loop `while (improved)` of `twoOpt`, entered with `improved = true`:
run a pass, and run again from its result as long as a pass adopted a swap. -/
def twoOptLoop (haversine : Coords → Coords → K) (startCoords : Coords)
    (bestRoute : List RoutePoint) : List RoutePoint :=
  if (twoOptPass haversine startCoords bestRoute).2 = true then
    twoOptLoop haversine startCoords (twoOptPass haversine startCoords bestRoute).1
  else (twoOptPass haversine startCoords bestRoute).1
termination_by shorterCount haversine startCoords bestRoute
decreasing_by
  rename_i himproved
  have hinv := twoOptPass_inv haversine startCoords bestRoute
  exact shorterCount_lt haversine startCoords bestRoute _ hinv.1 (hinv.2.2 himproved)

/-- The function `twoOpt(route, startCoords)`. -/
def twoOpt (haversine : Coords → Coords → K) (route : List RoutePoint)
    (startCoords : Coords) : List RoutePoint :=
  if route.length < 3 then route
  else twoOptLoop haversine startCoords route

end RouteOptimizer

/-! ## `computeRoute` -/

section ComputeRoute

variable {K : Type} [LinearOrderedField K]

/-- The module-level variables that `computeRoute` reads or writes. -/
structure RouteEnv (K : Type) where
  surfPoints : List Point
  distanceFilterEnabled : Bool
  maxStepKm : K
  lastRouteLimitRelaxed : Bool

/-- The constant `TWO_OPT_THRESHOLD`. -/
def TWO_OPT_THRESHOLD : Nat := 160

/-- The function `computeRoute(startCoords)`: the returned route, and the value
of `lastRouteLimitRelaxed` after the call (untouched by the early return on an
empty point set). -/
def computeRoute (haversine : Coords → Coords → K) (env : RouteEnv K)
    (startCoords : Coords) : List RoutePoint × Bool :=
  if (indexPoints env.surfPoints).length = 0 then ([], env.lastRouteLimitRelaxed)
  else
    let stepLimit : Option K := if env.distanceFilterEnabled then some env.maxStepKm else none
    let route := buildRoute haversine env.surfPoints startCoords stepLimit
    if route.length = 0 ∧ env.distanceFilterEnabled = true then
      let route := buildRoute haversine env.surfPoints startCoords none
      if route.length ≤ TWO_OPT_THRESHOLD then (twoOpt haversine route startCoords, true)
      else (route, true)
    else
      if route.length ≤ TWO_OPT_THRESHOLD then (twoOpt haversine route startCoords, false)
      else (route, false)

end ComputeRoute

/-! ## Properties of the route builder -/

section RouteBuilderProofs

variable {K : Type} [LinearOrderedField K]

/-- What the scan state says about the indices `seen` so far: either nothing
was within the limit, or the state holds a point of `seen` within the limit
that is at least as close as every point of `seen` within the limit. -/
def ScanInv (haversine : Coords → Coords → K) (points : List RoutePoint)
    (current : Coords) (limitKm : Option K) (seen : List Nat)
    (best : Option RoutePoint × Option K) : Prop :=
  (best = (none, none) ∧ ∀ idx ∈ seen, ∀ q, points[idx]? = some q →
      withinLimit (haversine current q.coords) limitKm = false)
  ∨ (∃ p, best = (some p, some (haversine current p.coords))
      ∧ (∃ idx ∈ seen, points[idx]? = some p)
      ∧ withinLimit (haversine current p.coords) limitKm = true
      ∧ ∀ idx ∈ seen, ∀ q, points[idx]? = some q →
          withinLimit (haversine current q.coords) limitKm = true →
          haversine current p.coords ≤ haversine current q.coords)

theorem scanStep_inv (haversine : Coords → Coords → K) (points : List RoutePoint)
    (current : Coords) (limitKm : Option K) (seen : List Nat)
    (best : Option RoutePoint × Option K) (i : Nat)
    (h : ScanInv haversine points current limitKm seen best) :
    ScanInv haversine points current limitKm (seen ++ [i])
      (scanStep haversine points current limitKm best i) := by
  unfold scanStep
  cases hp : points[i]? with
  | none =>
    simp only
    rcases h with ⟨hb, hall⟩ | ⟨p, hb, ⟨idx, hidx, hget⟩, hin, hmin⟩
    · refine Or.inl ⟨hb, fun idx hidx q hq => ?_⟩
      rcases List.mem_append.mp hidx with h1 | h1
      · exact hall idx h1 q hq
      · rw [List.mem_singleton] at h1; subst h1; rw [hp] at hq; cases hq
    · refine Or.inr ⟨p, hb, ⟨idx, List.mem_append_left _ hidx, hget⟩, hin, fun j hj q hq hw => ?_⟩
      rcases List.mem_append.mp hj with h1 | h1
      · exact hmin j h1 q hq hw
      · rw [List.mem_singleton] at h1; subst h1; rw [hp] at hq; cases hq
  | some x =>
    simp only
    rcases h with ⟨hb, hall⟩ | ⟨p, hb, ⟨idx, hidx, hget⟩, hin, hmin⟩
    · subst hb
      cases hw : withinLimit (haversine current x.coords) limitKm with
      | false =>
        simp only [Bool.false_and, Bool.false_eq_true, if_false]
        refine Or.inl ⟨rfl, fun idx hidx q hq => ?_⟩
        rcases List.mem_append.mp hidx with h1 | h1
        · exact hall idx h1 q hq
        · rw [List.mem_singleton] at h1; subst h1; rw [hp] at hq; cases hq; exact hw
      | true =>
        simp only [belowBest, Bool.and_self, if_true]
        refine Or.inr ⟨x, rfl, ⟨i, List.mem_append_right _ (List.mem_singleton_self _), hp⟩, hw,
          fun j hj q hq hwq => ?_⟩
        rcases List.mem_append.mp hj with h1 | h1
        · rw [hall j h1 q hq] at hwq; cases hwq
        · rw [List.mem_singleton] at h1; subst h1; rw [hp] at hq; cases hq; exact le_refl _
    · subst hb
      by_cases hc : (withinLimit (haversine current x.coords) limitKm
          && belowBest (haversine current x.coords) (some (haversine current p.coords))) = true
      · simp only [hc, if_true]
        rw [Bool.and_eq_true] at hc
        have hlt : haversine current x.coords < haversine current p.coords := by
          simpa [belowBest] using hc.2
        refine Or.inr ⟨x, rfl, ⟨i, List.mem_append_right _ (List.mem_singleton_self _), hp⟩, hc.1,
          fun j hj q hq hwq => ?_⟩
        rcases List.mem_append.mp hj with h1 | h1
        · exact le_trans (le_of_lt hlt) (hmin j h1 q hq hwq)
        · rw [List.mem_singleton] at h1; subst h1; rw [hp] at hq; cases hq; exact le_refl _
      · simp only [hc]
        refine Or.inr ⟨p, rfl, ⟨idx, List.mem_append_left _ hidx, hget⟩, hin,
          fun j hj q hq hwq => ?_⟩
        rcases List.mem_append.mp hj with h1 | h1
        · exact hmin j h1 q hq hwq
        · rw [List.mem_singleton] at h1; subst h1; rw [hp] at hq; cases hq
          rw [Bool.and_eq_true, not_and] at hc
          have hnlt := hc hwq
          simp only [belowBest, decide_eq_true_eq, not_lt] at hnlt
          exact hnlt

theorem scan_foldl_inv (haversine : Coords → Coords → K) (points : List RoutePoint)
    (current : Coords) (limitKm : Option K) (rest seen : List Nat)
    (best : Option RoutePoint × Option K)
    (h : ScanInv haversine points current limitKm seen best) :
    ScanInv haversine points current limitKm (seen ++ rest)
      (rest.foldl (scanStep haversine points current limitKm) best) := by
  induction rest generalizing seen best with
  | nil => simpa using h
  | cons i tl ih =>
    rw [List.foldl_cons]
    have := ih (seen ++ [i]) _ (scanStep_inv haversine points current limitKm seen best i h)
    simpa using this

/-- The result of a scan of `remaining`. -/
theorem scanRemaining_inv (haversine : Coords → Coords → K) (points : List RoutePoint)
    (current : Coords) (limitKm : Option K) (remaining : List Nat) :
    ScanInv haversine points current limitKm remaining
      (scanRemaining haversine points current limitKm remaining) := by
  have h := scan_foldl_inv haversine points current limitKm remaining [] (none, none)
    (Or.inl ⟨rfl, fun idx hidx => by cases hidx⟩)
  simpa [scanRemaining] using h

/-- A point chosen by the scan: it is `points[idx]` for an unvisited `idx`, it is
within the limit, and no unvisited point within the limit is strictly closer. -/
theorem scanRemaining_some (haversine : Coords → Coords → K) (points : List RoutePoint)
    (current : Coords) (limitKm : Option K) (remaining : List Nat) (p : RoutePoint)
    (h : (scanRemaining haversine points current limitKm remaining).1 = some p) :
    (∃ idx ∈ remaining, points[idx]? = some p)
      ∧ withinLimit (haversine current p.coords) limitKm = true
      ∧ ∀ idx ∈ remaining, ∀ q, points[idx]? = some q →
          withinLimit (haversine current q.coords) limitKm = true →
          haversine current p.coords ≤ haversine current q.coords := by
  rcases scanRemaining_inv haversine points current limitKm remaining with
    ⟨hb, _⟩ | ⟨p2, hb, hmem, hin, hmin⟩
  · rw [hb] at h; cases h
  · rw [hb] at h
    simp only [Option.some.injEq] at h
    subst h
    exact ⟨hmem, hin, hmin⟩

/-- A scan that chooses nothing: no unvisited point is within the limit. -/
theorem scanRemaining_none (haversine : Coords → Coords → K) (points : List RoutePoint)
    (current : Coords) (limitKm : Option K) (remaining : List Nat)
    (h : (scanRemaining haversine points current limitKm remaining).1 = none) :
    ∀ idx ∈ remaining, ∀ q, points[idx]? = some q →
      withinLimit (haversine current q.coords) limitKm = false := by
  rcases scanRemaining_inv haversine points current limitKm remaining with
    ⟨_, hall⟩ | ⟨p2, hb, _, _, _⟩
  · exact hall
  · rw [hb] at h; cases h

/-! ### Unfolding the `while` loop -/

theorem buildLoop_nil (haversine : Coords → Coords → K) (surfPoints : List Point)
    (limitKm : Option K) (route : List RoutePoint) (current : Coords) :
    buildLoop haversine surfPoints limitKm [] route current = route := by
  rw [buildLoop]
  simp

theorem buildLoop_none (haversine : Coords → Coords → K) (surfPoints : List Point)
    (limitKm : Option K) (remaining : List Nat) (route : List RoutePoint) (current : Coords)
    (h : (scanRemaining haversine (indexPoints surfPoints) current limitKm remaining).1 = none) :
    buildLoop haversine surfPoints limitKm remaining route current = route := by
  rw [buildLoop]
  split
  · rfl
  · split
    · rfl
    · rename_i b hb
      rw [h] at hb
      cases hb

theorem buildLoop_some (haversine : Coords → Coords → K) (surfPoints : List Point)
    (limitKm : Option K) (remaining : List Nat) (route : List RoutePoint) (current : Coords)
    (bestPoint : RoutePoint) (hne : remaining ≠ [])
    (h : (scanRemaining haversine (indexPoints surfPoints) current limitKm remaining).1
      = some bestPoint) :
    buildLoop haversine surfPoints limitKm remaining route current
      = buildLoop haversine surfPoints limitKm (remaining.erase bestPoint.index)
          (route ++ [bestPoint]) bestPoint.coords := by
  rw [buildLoop]
  split
  · contradiction
  · split
    · rename_i hb
      rw [h] at hb
      cases hb
    · rename_i b hb
      rw [h] at hb
      cases hb
      rfl

/-- The point of `surfPoints` that a route point was copied from. -/
def RoutePoint.toPoint (p : RoutePoint) : Point := ⟨p.name, p.address, p.coords⟩

/-- A route point is canonical: it is the copy, with its own position as
`index`, of an entry of `surfPoints`. -/
def IsCanonical (surfPoints : List Point) (p : RoutePoint) : Prop :=
  surfPoints[p.index]? = some p.toPoint

theorem indexPoints_canonical (surfPoints : List Point) (idx : Nat) (p : RoutePoint)
    (h : (indexPoints surfPoints)[idx]? = some p) :
    p.index = idx ∧ IsCanonical surfPoints p := by
  rw [indexPoints_getElem?] at h
  cases hs : surfPoints[idx]? with
  | none => rw [hs] at h; cases h
  | some q =>
    rw [hs] at h
    simp only [Option.map_some', Option.some.injEq] at h
    subst h
    exact ⟨rfl, hs⟩

/-- The invariant of the `while` loop behind route validity. -/
theorem buildLoop_valid (haversine : Coords → Coords → K) (surfPoints : List Point)
    (limitKm : Option K) (remaining : List Nat) (route : List RoutePoint) (current : Coords)
    (hrem : remaining.Nodup)
    (hcanon : ∀ p ∈ route, IsCanonical surfPoints p)
    (hnodup : (route.map (fun p => p.index)).Nodup)
    (hdisj : ∀ p ∈ route, p.index ∉ remaining) :
    (∀ p ∈ buildLoop haversine surfPoints limitKm remaining route current,
        IsCanonical surfPoints p)
      ∧ ((buildLoop haversine surfPoints limitKm remaining route current).map
          (fun p => p.index)).Nodup := by
  induction remaining, route, current using buildLoop.induct haversine surfPoints limitKm with
  | case1 route current =>
    rw [buildLoop_nil]
    exact ⟨hcanon, hnodup⟩
  | case2 remaining route current _ hnone =>
    rw [buildLoop_none haversine surfPoints limitKm remaining route current hnone]
    exact ⟨hcanon, hnodup⟩
  | case3 remaining route current hne bestPoint hsome ih =>
    rw [buildLoop_some haversine surfPoints limitKm remaining route current bestPoint hne hsome]
    obtain ⟨⟨idx, hidx, hget⟩, _, _⟩ :=
      scanRemaining_some haversine _ current limitKm remaining bestPoint hsome
    obtain ⟨hindex, hbest⟩ := indexPoints_canonical surfPoints idx bestPoint hget
    apply ih
    · exact hrem.erase _
    · intro p hp
      rcases List.mem_append.mp hp with h1 | h1
      · exact hcanon p h1
      · rw [List.mem_singleton] at h1; subst h1; exact hbest
    · rw [List.map_append, List.map_singleton]
      apply List.Nodup.append hnodup (List.nodup_singleton _)
      intro a ha hab
      rw [List.mem_singleton] at hab
      subst hab
      obtain ⟨p, hp, hpa⟩ := List.mem_map.mp ha
      apply hdisj p hp
      rw [hpa, hindex]
      exact hidx
    · intro p hp hmem
      rcases List.mem_append.mp hp with h1 | h1
      · exact hdisj p h1 (List.mem_of_mem_erase hmem)
      · rw [List.mem_singleton] at h1
        subst h1
        exact (List.Nodup.mem_erase_iff hrem).mp hmem |>.1 rfl

theorem indexPoints_map_index (surfPoints : List Point) :
    (indexPoints surfPoints).map (fun p => p.index) = List.range surfPoints.length := by
  apply List.ext_getElem?
  intro n
  rw [List.getElem?_map, indexPoints_getElem?]
  by_cases hn : n < surfPoints.length
  · rw [List.getElem?_eq_getElem hn, List.getElem?_range hn]
    rfl
  · rw [List.getElem?_eq_none (by omega), List.getElem?_eq_none (by simpa using hn)]
    rfl

/-- **C1** (route validity).  For every point set, start coordinate and step
limit (finite, or `none` for unlimited), every element of the route built by
`buildRoute` is the indexed copy of the entry of `surfPoints` at its own
`index`, and no `index` occurs twice in the route. -/
theorem buildRoute_valid (haversine : Coords → Coords → K) (surfPoints : List Point)
    (startCoords : Coords) (limitKm : Option K) :
    (∀ p ∈ buildRoute haversine surfPoints startCoords limitKm,
        surfPoints[p.index]? = some ⟨p.name, p.address, p.coords⟩)
      ∧ ((buildRoute haversine surfPoints startCoords limitKm).map
          (fun p => p.index)).Nodup := by
  unfold buildRoute
  apply buildLoop_valid
  · rw [indexPoints_map_index]
    exact List.nodup_range _
  · intro p hp; cases hp
  · exact List.nodup_nil
  · intro p hp; cases hp

/-! ### Legs of a route -/

/-- Every leg of the path `from`, `route[0]`, `route[1]`, ... is at most
`limit` long. -/
def LegsWithin (haversine : Coords → Coords → K) (limit : K) :
    Coords → List RoutePoint → Prop
  | _, [] => True
  | origin, p :: rest => haversine origin p.coords ≤ limit ∧ LegsWithin haversine limit p.coords rest

/-- Coordinates of the last point of `route`, or `origin` for an empty route. -/
def lastCoords (origin : Coords) : List RoutePoint → Coords
  | [] => origin
  | p :: rest => lastCoords p.coords rest

theorem lastCoords_append (origin : Coords) (route : List RoutePoint) (b : RoutePoint) :
    lastCoords origin (route ++ [b]) = b.coords := by
  induction route generalizing origin with
  | nil => rfl
  | cons p rest ih => exact ih p.coords

theorem legsWithin_append (haversine : Coords → Coords → K) (limit : K) (origin : Coords)
    (route : List RoutePoint) (b : RoutePoint)
    (h : LegsWithin haversine limit origin route)
    (hb : haversine (lastCoords origin route) b.coords ≤ limit) :
    LegsWithin haversine limit origin (route ++ [b]) := by
  induction route generalizing origin with
  | nil => exact ⟨hb, trivial⟩
  | cons p rest ih => exact ⟨h.1, ih p.coords h.2 hb⟩

/-- The legs in terms of positions: the first leg, and the leg between
neighbours. -/
theorem legsWithin_getElem (haversine : Coords → Coords → K) (limit : K) (origin : Coords)
    (route : List RoutePoint) (h : LegsWithin haversine limit origin route) :
    (∀ p, route[0]? = some p → haversine origin p.coords ≤ limit)
      ∧ ∀ i p q, route[i]? = some p → route[i + 1]? = some q →
          haversine p.coords q.coords ≤ limit := by
  induction route generalizing origin with
  | nil =>
    refine ⟨fun p hp => ?_, fun i p q hp _ => ?_⟩ <;> simp at hp
  | cons a rest ih =>
    obtain ⟨h0, hrest⟩ := ih a.coords h.2
    refine ⟨fun p hp => ?_, fun i p q hp hq => ?_⟩
    · simp only [List.getElem?_cons_zero, Option.some.injEq] at hp
      subst hp
      exact h.1
    · cases i with
      | zero =>
        simp only [List.getElem?_cons_zero, Option.some.injEq] at hp
        subst hp
        rw [List.getElem?_cons_succ] at hq
        exact h0 q hq
      | succ j =>
        rw [List.getElem?_cons_succ] at hp hq
        exact hrest j p q hp hq

/-- The invariant of the `while` loop behind constraint respect. -/
theorem buildLoop_legs (haversine : Coords → Coords → K) (surfPoints : List Point)
    (maxStepKm : K) (startCoords : Coords) (remaining : List Nat) (route : List RoutePoint)
    (current : Coords) (hcur : current = lastCoords startCoords route)
    (hlegs : LegsWithin haversine maxStepKm startCoords route) :
    LegsWithin haversine maxStepKm startCoords
      (buildLoop haversine surfPoints (some maxStepKm) remaining route current) := by
  induction remaining, route, current using
    buildLoop.induct haversine surfPoints (some maxStepKm) with
  | case1 route current =>
    rw [buildLoop_nil]
    exact hlegs
  | case2 remaining route current _ hnone =>
    rw [buildLoop_none haversine surfPoints _ remaining route current hnone]
    exact hlegs
  | case3 remaining route current hne bestPoint hsome ih =>
    rw [buildLoop_some haversine surfPoints _ remaining route current bestPoint hne hsome]
    obtain ⟨_, hin, _⟩ :=
      scanRemaining_some haversine _ current (some maxStepKm) remaining bestPoint hsome
    apply ih
    · exact (lastCoords_append startCoords route bestPoint).symm
    · apply legsWithin_append haversine maxStepKm startCoords route bestPoint hlegs
      rw [← hcur]
      simpa [withinLimit] using hin

/-- **C2** (constraint respect of the greedy builder).  For every point set,
start coordinate and finite limit `maxStepKm`, in the route built by
`buildRoute(maxStepKm)` the leg from the start to the first point and the leg
from each route point to its successor are at most `maxStepKm` long. -/
theorem buildRoute_legs_within (haversine : Coords → Coords → K) (surfPoints : List Point)
    (startCoords : Coords) (maxStepKm : K) :
    (∀ p, (buildRoute haversine surfPoints startCoords (some maxStepKm))[0]? = some p →
        haversine startCoords p.coords ≤ maxStepKm)
      ∧ ∀ i p q,
          (buildRoute haversine surfPoints startCoords (some maxStepKm))[i]? = some p →
          (buildRoute haversine surfPoints startCoords (some maxStepKm))[i + 1]? = some q →
          haversine p.coords q.coords ≤ maxStepKm := by
  apply legsWithin_getElem haversine maxStepKm startCoords
  unfold buildRoute
  exact buildLoop_legs haversine surfPoints maxStepKm startCoords _ [] startCoords rfl trivial

/-- The loop only appends: the route on entry is a prefix of the result. -/
theorem buildLoop_prefix (haversine : Coords → Coords → K) (surfPoints : List Point)
    (limitKm : Option K) (remaining : List Nat) (route : List RoutePoint) (current : Coords) :
    route <+: buildLoop haversine surfPoints limitKm remaining route current := by
  induction remaining, route, current using buildLoop.induct haversine surfPoints limitKm with
  | case1 route current =>
    rw [buildLoop_nil]
  | case2 remaining route current _ hnone =>
    rw [buildLoop_none haversine surfPoints limitKm remaining route current hnone]
  | case3 remaining route current hne bestPoint hsome ih =>
    rw [buildLoop_some haversine surfPoints limitKm remaining route current bestPoint hne hsome]
    exact (List.prefix_append route [bestPoint]).trans ih

/-- With every point farther than `maxStepKm` from the start, the limited run
builds the empty route. -/
theorem buildRoute_all_far (haversine : Coords → Coords → K) (surfPoints : List Point)
    (startCoords : Coords) (maxStepKm : K)
    (hfar : ∀ p ∈ surfPoints, maxStepKm < haversine startCoords p.coords) :
    buildRoute haversine surfPoints startCoords (some maxStepKm) = [] := by
  unfold buildRoute
  apply buildLoop_none
  cases hscan : (scanRemaining haversine (indexPoints surfPoints) startCoords (some maxStepKm)
      (List.map (fun p => p.index) (indexPoints surfPoints))).1 with
  | none => rfl
  | some b =>
    exfalso
    obtain ⟨⟨idx, _, hget⟩, hin, _⟩ :=
      scanRemaining_some haversine _ startCoords (some maxStepKm) _ b hscan
    obtain ⟨_, hcanon⟩ := indexPoints_canonical surfPoints idx b hget
    have hmem : b.toPoint ∈ surfPoints := by
      obtain ⟨hlt, heq⟩ := List.getElem?_eq_some.mp hcanon
      rw [← heq]
      exact List.getElem_mem hlt
    have hlt := hfar _ hmem
    have hle : haversine startCoords b.coords ≤ maxStepKm := by
      simpa [withinLimit] using hin
    exact absurd hlt (not_lt.mpr hle)

/-- Without a limit, a non-empty point set gives a non-empty route. -/
theorem buildRoute_unlimited_ne_nil (haversine : Coords → Coords → K)
    (surfPoints : List Point) (startCoords : Coords) (hne : surfPoints ≠ []) :
    buildRoute haversine surfPoints startCoords none ≠ [] := by
  unfold buildRoute
  rw [indexPoints_map_index]
  have hpos : 0 < surfPoints.length := List.length_pos.mpr hne
  have hrange : List.range surfPoints.length ≠ [] := by
    intro h
    have hlen := congrArg List.length h
    rw [List.length_range, List.length_nil] at hlen
    omega
  cases hscan : (scanRemaining haversine (indexPoints surfPoints) startCoords none
      (List.range surfPoints.length)).1 with
  | none =>
    exfalso
    have hall := scanRemaining_none haversine _ startCoords none _ hscan
    have h0 : (indexPoints surfPoints)[0]? = some (withIndex (surfPoints[0]) 0) := by
      rw [indexPoints_getElem?, List.getElem?_eq_getElem hpos]
      rfl
    have := hall 0 (List.mem_range.mpr hpos) _ h0
    simp [withinLimit] at this
  | some b =>
    rw [buildLoop_some haversine surfPoints none _ [] startCoords b hrange hscan]
    intro hnil
    have hpre := buildLoop_prefix haversine surfPoints none
      ((List.range surfPoints.length).erase b.index) ([] ++ [b]) b.coords
    rw [hnil] at hpre
    simp at hpre

end RouteBuilderProofs

/-! ## Properties of the route optimiser -/

section RouteOptimizerProofs

variable {K : Type} [LinearOrderedField K]

/-- The loop of passes returns an ordering of the route it was entered with,
and one that is not longer. -/
theorem twoOptLoop_perm_le (haversine : Coords → Coords → K) (startCoords : Coords)
    (bestRoute : List RoutePoint) :
    (twoOptLoop haversine startCoords bestRoute).Perm bestRoute
      ∧ routeDistance haversine (twoOptLoop haversine startCoords bestRoute) startCoords
          ≤ routeDistance haversine bestRoute startCoords := by
  induction bestRoute using twoOptLoop.induct haversine startCoords with
  | case1 bestRoute himproved ih =>
    obtain ⟨hperm, hle, _⟩ := twoOptPass_inv haversine startCoords bestRoute
    rw [twoOptLoop, if_pos himproved]
    exact ⟨ih.1.trans hperm, le_trans ih.2 hle⟩
  | case2 bestRoute hsame =>
    obtain ⟨hperm, hle, _⟩ := twoOptPass_inv haversine startCoords bestRoute
    rw [twoOptLoop, if_neg hsame]
    exact ⟨hperm, hle⟩

/-- A property of routes kept by every segment reversal between positions
`i ≤ k` is kept by a pass. -/
theorem twoOptPass_preserves (haversine : Coords → Coords → K) (startCoords : Coords)
    (P : List RoutePoint → Prop)
    (hswap : ∀ r i k, i ≤ k → P r → P (twoOptSwap r i k))
    (r : List RoutePoint) (hr : P r) : P (twoOptPass haversine startCoords r).1 := by
  have hinner : ∀ (i : Nat) (ks : List Nat) (st : List RoutePoint × Bool),
      (∀ k ∈ ks, i ≤ k) → P st.1 →
      P (ks.foldl (twoOptInner haversine startCoords i) st).1 := by
    intro i ks
    induction ks with
    | nil => intro st _ h; exact h
    | cons k rest ih =>
      intro st hks h
      rw [List.foldl_cons]
      apply ih _ (fun k2 hk2 => hks k2 (List.mem_cons_of_mem _ hk2))
      unfold twoOptInner
      simp only
      split
      · exact hswap _ _ _ (hks k (List.mem_cons_self _ _)) h
      · exact h
  have houter : ∀ (is : List Nat) (st : List RoutePoint × Bool),
      P st.1 → P (is.foldl (twoOptOuter haversine startCoords) st).1 := by
    intro is
    induction is with
    | nil => intro st h; exact h
    | cons i rest ih =>
      intro st h
      rw [List.foldl_cons]
      apply ih
      unfold twoOptOuter
      apply hinner i _ st _ h
      intro k hk
      rw [List.mem_range'_1] at hk
      omega
  exact houter _ _ hr

/-- A property of routes kept by every segment reversal between positions
`i ≤ k` is kept by `twoOpt`. -/
theorem twoOpt_preserves (haversine : Coords → Coords → K) (startCoords : Coords)
    (P : List RoutePoint → Prop)
    (hswap : ∀ r i k, i ≤ k → P r → P (twoOptSwap r i k))
    (route : List RoutePoint) (hr : P route) : P (twoOpt haversine route startCoords) := by
  have hloop : ∀ r, P r → P (twoOptLoop haversine startCoords r) := by
    intro r
    induction r using twoOptLoop.induct haversine startCoords with
    | case1 bestRoute himproved ih =>
      intro hb
      rw [twoOptLoop, if_pos himproved]
      exact ih (twoOptPass_preserves haversine startCoords P hswap bestRoute hb)
    | case2 bestRoute hsame =>
      intro hb
      rw [twoOptLoop, if_neg hsame]
      exact twoOptPass_preserves haversine startCoords P hswap bestRoute hb
  unfold twoOpt
  split
  · exact hr
  · exact hloop route hr

/-- The route returned by `twoOpt` is a reordering of its input. -/
theorem twoOpt_perm_input (haversine : Coords → Coords → K) (route : List RoutePoint)
    (startCoords : Coords) : (twoOpt haversine route startCoords).Perm route :=
  twoOpt_preserves haversine startCoords (fun r => r.Perm route)
    (fun r i k hik hr => (twoOptSwap_perm r i k hik).trans hr) route (List.Perm.refl _)

/-- A segment reversal keeps the first point of the route. -/
theorem twoOptSwap_head? (route : List RoutePoint) (i k : Nat) :
    (twoOptSwap route i k)[0]? = route[0]? := by
  cases route with
  | nil => simp [twoOptSwap]
  | cons a rest => simp [twoOptSwap]

/-- The route returned by `twoOpt` starts with the first point of its input. -/
theorem twoOpt_head? (haversine : Coords → Coords → K) (route : List RoutePoint)
    (startCoords : Coords) : (twoOpt haversine route startCoords)[0]? = route[0]? :=
  twoOpt_preserves haversine startCoords (fun r => r[0]? = route[0]?)
    (fun r i k _ hr => (twoOptSwap_head? r i k).trans hr) route rfl

/-- **C5** (2-opt non-regression).  For every route and start coordinate the
route returned by `twoOpt` is not longer than the input route, lengths being
measured by `routeDistance` in exact arithmetic. -/
theorem twoOpt_routeDistance_le (haversine : Coords → Coords → K) (route : List RoutePoint)
    (startCoords : Coords) :
    routeDistance haversine (twoOpt haversine route startCoords) startCoords
      ≤ routeDistance haversine route startCoords := by
  unfold twoOpt
  split
  · exact le_refl _
  · exact (twoOptLoop_perm_le haversine startCoords route).2

/-- **C6** (2-opt returns a permutation).  For every route and start coordinate
the route returned by `twoOpt` has the length of the input, is a reordering of
it, and holds every point as many times as the input does. -/
theorem twoOpt_perm (haversine : Coords → Coords → K) (route : List RoutePoint)
    (startCoords : Coords) :
    (twoOpt haversine route startCoords).length = route.length
      ∧ (twoOpt haversine route startCoords).Perm route
      ∧ ∀ p, (twoOpt haversine route startCoords).count p = route.count p := by
  have hperm := twoOpt_perm_input haversine route startCoords
  exact ⟨hperm.length_eq, hperm, fun p => hperm.count_eq p⟩

end RouteOptimizerProofs

/-! ## Properties of `computeRoute` -/

section ComputeRouteProofs

variable {K : Type} [LinearOrderedField K]

theorem buildRoute_nil (haversine : Coords → Coords → K) (startCoords : Coords)
    (limitKm : Option K) : buildRoute haversine [] startCoords limitKm = [] := by
  unfold buildRoute
  exact buildLoop_nil haversine [] limitKm [] startCoords

theorem indexPoints_length (surfPoints : List Point) :
    (indexPoints surfPoints).length = surfPoints.length := by
  simp [indexPoints]

/-- With the filter enabled and the relaxed flag false after the call,
`computeRoute` returns the limited greedy route, piped through `twoOpt` when it
has at most `TWO_OPT_THRESHOLD` points. -/
theorem computeRoute_not_relaxed (haversine : Coords → Coords → K) (env : RouteEnv K)
    (startCoords : Coords) (henabled : env.distanceFilterEnabled = true)
    (hflag : (computeRoute haversine env startCoords).2 = false) :
    (computeRoute haversine env startCoords).1
      = if (buildRoute haversine env.surfPoints startCoords (some env.maxStepKm)).length
            ≤ TWO_OPT_THRESHOLD
        then twoOpt haversine
          (buildRoute haversine env.surfPoints startCoords (some env.maxStepKm)) startCoords
        else buildRoute haversine env.surfPoints startCoords (some env.maxStepKm) := by
  by_cases h0 : (indexPoints env.surfPoints).length = 0
  · have hnil : env.surfPoints = [] := by
      rw [indexPoints_length] at h0
      exact List.length_eq_zero.mp h0
    rw [hnil, buildRoute_nil]
    simp [computeRoute, hnil, indexPoints, twoOpt]
  · by_cases hg : (buildRoute haversine env.surfPoints startCoords
        (some env.maxStepKm)).length = 0
    · exfalso
      revert hflag
      simp only [computeRoute, h0, henabled, if_true, if_false, hg, and_self]
      split <;> simp
    · simp only [computeRoute, h0, henabled, if_true, if_false, hg, false_and]
      split <;> rfl

/-- **C3, as the code has it** (constraint respect of the final route).  With
the distance filter enabled and the relaxed flag false after the call, the route
returned by `computeRoute` is a reordering of the greedy route
`buildRoute(maxStepKm)`, its leg from the start to its first point is at most
`maxStepKm` long, and when it has fewer than 3 or more than `TWO_OPT_THRESHOLD`
points each of its legs between neighbours is at most `maxStepKm` long. -/
theorem computeRoute_legs_within (haversine : Coords → Coords → K) (env : RouteEnv K)
    (startCoords : Coords) (henabled : env.distanceFilterEnabled = true)
    (hflag : (computeRoute haversine env startCoords).2 = false) :
    (computeRoute haversine env startCoords).1.Perm
        (buildRoute haversine env.surfPoints startCoords (some env.maxStepKm))
      ∧ (∀ p, (computeRoute haversine env startCoords).1[0]? = some p →
          haversine startCoords p.coords ≤ env.maxStepKm)
      ∧ ((computeRoute haversine env startCoords).1.length < 3
          ∨ TWO_OPT_THRESHOLD < (computeRoute haversine env startCoords).1.length →
          ∀ i p q, (computeRoute haversine env startCoords).1[i]? = some p →
            (computeRoute haversine env startCoords).1[i + 1]? = some q →
            haversine p.coords q.coords ≤ env.maxStepKm) := by
  have hlegs : LegsWithin haversine env.maxStepKm startCoords
      (buildRoute haversine env.surfPoints startCoords (some env.maxStepKm)) := by
    unfold buildRoute
    exact buildLoop_legs haversine env.surfPoints env.maxStepKm startCoords _ [] startCoords
      rfl trivial
  obtain ⟨hfirst, hnext⟩ := legsWithin_getElem haversine env.maxStepKm startCoords _ hlegs
  rw [computeRoute_not_relaxed haversine env startCoords henabled hflag]
  split
  · refine ⟨twoOpt_perm_input haversine _ startCoords, fun p hp => ?_, fun hlen => ?_⟩
    · rw [twoOpt_head?] at hp
      exact hfirst p hp
    · have hshort : (buildRoute haversine env.surfPoints startCoords
          (some env.maxStepKm)).length < 3 := by
        rw [(twoOpt_perm_input haversine _ startCoords).length_eq] at hlen
        omega
      have hsame : twoOpt haversine (buildRoute haversine env.surfPoints startCoords
          (some env.maxStepKm)) startCoords
          = buildRoute haversine env.surfPoints startCoords (some env.maxStepKm) := by
        unfold twoOpt
        rw [if_pos hshort]
      rw [hsame]
      exact hnext
  · exact ⟨List.Perm.refl _, hfirst, fun _ => hnext⟩

/-- **C4** (relaxation trigger).  For a non-empty point set with the distance
filter enabled, if every point is farther than `maxStepKm` from the start then
`computeRoute` returns a non-empty route and leaves `lastRouteLimitRelaxed`
set to `true`. -/
theorem computeRoute_relaxes (haversine : Coords → Coords → K) (env : RouteEnv K)
    (startCoords : Coords) (hne : env.surfPoints ≠ [])
    (henabled : env.distanceFilterEnabled = true)
    (hfar : ∀ p ∈ env.surfPoints, env.maxStepKm < haversine startCoords p.coords) :
    (computeRoute haversine env startCoords).1 ≠ []
      ∧ (computeRoute haversine env startCoords).2 = true := by
  have h0 : (indexPoints env.surfPoints).length ≠ 0 := by
    rw [indexPoints_length]
    exact fun h => hne (List.length_eq_zero.mp h)
  have hempty := buildRoute_all_far haversine env.surfPoints startCoords env.maxStepKm hfar
  have hfull := buildRoute_unlimited_ne_nil haversine env.surfPoints startCoords hne
  simp only [computeRoute, h0, henabled, if_true, if_false, hempty, List.length_nil, and_self]
  split
  · refine ⟨fun hnil => hfull ?_, rfl⟩
    have hlen := (twoOpt_perm_input haversine
      (buildRoute haversine env.surfPoints startCoords none) startCoords).length_eq
    have hnil2 : twoOpt haversine (buildRoute haversine env.surfPoints startCoords none)
        startCoords = [] := hnil
    rw [hnil2, List.length_nil] at hlen
    exact List.length_eq_zero.mp hlen.symm
  · exact ⟨hfull, rfl⟩

end ComputeRouteProofs

/-! ## A worked route: four coffee shops in the centre of Moscow -/

section CrossingExample

/-- The start of the worked route. -/
def crossStart : Coords := deg 55.7455 37.6384

/-- Four points; the greedy builder visits them in this order under a 2 km limit. -/
def crossPoints : List Point :=
  [⟨"Surf Coffee x Taganka", "Москва", deg 55.7473 37.6479⟩,
   ⟨"Surf Coffee x Lubyanka", "Москва", deg 55.7572 37.6224⟩,
   ⟨"Surf Coffee x Trubnaya", "Москва", deg 55.7644 37.6224⟩,
   ⟨"Surf Coffee x Arbat", "Москва", deg 55.75 37.608⟩]

/-- The five places of the worked route: the start, then the four points. -/
def crossSites : List Coords := crossStart :: crossPoints.map (fun p => p.coords)

/-- Great-circle distances in kilometres between the five places, rounded to
the metre (the haversine formula with `R = 6371` at the coordinates above). -/
def crossKm : List (List ℚ) :=
  [[0, 0.627, 1.642, 2.328, 1.967],
   [0.627, 0, 1.939, 2.482, 2.515],
   [1.642, 1.939, 0, 0.801, 1.205],
   [2.328, 2.482, 0.801, 0, 1.837],
   [1.967, 2.515, 1.205, 1.837, 0]]

/-- The function `haversine` on the five places of the worked route. -/
def crossHaversine (a b : Coords) : ℚ :=
  ((crossKm.getD (crossSites.indexOf a) []).getD (crossSites.indexOf b) 0)

/-- The worked route is planned with the filter on and a limit of 2 km. -/
def crossEnv : RouteEnv ℚ := ⟨crossPoints, true, 2, false⟩

/-- The same points with a limit of half a kilometre: nothing is in reach of
the start. -/
def crossEnvTight : RouteEnv ℚ := ⟨crossPoints, true, 0.5, false⟩

/-- The indexed copy of the point at position `i` of `crossPoints`. -/
def crossPoint (i : Nat) : RoutePoint :=
  (indexPoints crossPoints).getD i ⟨"", "", deg 0 0, 0⟩

theorem cross_buildRoute :
    buildRoute crossHaversine crossPoints crossStart (some 2)
      = [crossPoint 0, crossPoint 1, crossPoint 2, crossPoint 3] := by
  have hrem : (indexPoints crossPoints).map (fun p => p.index) = [0, 1, 2, 3] := by decide
  have h0 : (scanRemaining crossHaversine (indexPoints crossPoints) crossStart (some 2)
      [0, 1, 2, 3]).1 = some (crossPoint 0) := by decide!
  have h1 : (scanRemaining crossHaversine (indexPoints crossPoints) (crossPoint 0).coords
      (some 2) [1, 2, 3]).1 = some (crossPoint 1) := by decide!
  have h2 : (scanRemaining crossHaversine (indexPoints crossPoints) (crossPoint 1).coords
      (some 2) [2, 3]).1 = some (crossPoint 2) := by decide!
  have h3 : (scanRemaining crossHaversine (indexPoints crossPoints) (crossPoint 2).coords
      (some 2) [3]).1 = some (crossPoint 3) := by decide!
  have e0 : [0, 1, 2, 3].erase (crossPoint 0).index = [1, 2, 3] := by decide
  have e1 : [1, 2, 3].erase (crossPoint 1).index = [2, 3] := by decide
  have e2 : [2, 3].erase (crossPoint 2).index = [3] := by decide
  have e3 : [3].erase (crossPoint 3).index = [] := by decide
  unfold buildRoute
  rw [hrem, buildLoop_some _ _ _ _ _ _ _ (by decide) h0, e0,
    buildLoop_some _ _ _ _ _ _ _ (by decide) h1, e1,
    buildLoop_some _ _ _ _ _ _ _ (by decide) h2, e2,
    buildLoop_some _ _ _ _ _ _ _ (by decide) h3, e3, buildLoop_nil]
  rfl

theorem cross_twoOpt :
    twoOpt crossHaversine [crossPoint 0, crossPoint 1, crossPoint 2, crossPoint 3] crossStart
      = [crossPoint 0, crossPoint 2, crossPoint 1, crossPoint 3] := by
  have hp1 : twoOptPass crossHaversine crossStart
      [crossPoint 0, crossPoint 1, crossPoint 2, crossPoint 3]
      = ([crossPoint 0, crossPoint 2, crossPoint 1, crossPoint 3], true) := by decide!
  have hp2 : twoOptPass crossHaversine crossStart
      [crossPoint 0, crossPoint 2, crossPoint 1, crossPoint 3]
      = ([crossPoint 0, crossPoint 2, crossPoint 1, crossPoint 3], false) := by decide!
  unfold twoOpt
  rw [if_neg (by decide), twoOptLoop, hp1, if_pos rfl, twoOptLoop, hp2, if_neg (by decide)]

/-- The call `computeRoute(crossStart)` with the filter on and `maxStepKm = 2`. -/
theorem cross_computeRoute :
    computeRoute crossHaversine crossEnv crossStart
      = ([crossPoint 0, crossPoint 2, crossPoint 1, crossPoint 3], false) := by
  have hg : buildRoute crossHaversine crossEnv.surfPoints crossStart (some crossEnv.maxStepKm)
      = [crossPoint 0, crossPoint 1, crossPoint 2, crossPoint 3] := cross_buildRoute
  have h0 : ¬ (indexPoints crossEnv.surfPoints).length = 0 := by decide
  have hen : crossEnv.distanceFilterEnabled = true := rfl
  simp only [computeRoute, h0, hen, if_true, if_false, hg]
  rw [if_neg (by decide), if_pos (by decide), cross_twoOpt]

/-- **C3 fails as stated.**  With the filter enabled, `maxStepKm = 2` and the
relaxed flag false, `computeRoute` returns the four points in the order 0, 2, 1,
3: `twoOpt` has reversed the segment of points 1 and 2, and the leg from point 0
to point 2 is 2.482 km long. -/
theorem computeRoute_leg_exceeds_limit :
    crossEnv.distanceFilterEnabled = true
      ∧ (computeRoute crossHaversine crossEnv crossStart).2 = false
      ∧ (computeRoute crossHaversine crossEnv crossStart).1.length ≤ 160
      ∧ (computeRoute crossHaversine crossEnv crossStart).1[0]? = some (crossPoint 0)
      ∧ (computeRoute crossHaversine crossEnv crossStart).1[1]? = some (crossPoint 2)
      ∧ crossEnv.maxStepKm < crossHaversine (crossPoint 0).coords (crossPoint 2).coords := by
  rw [cross_computeRoute]
  refine ⟨rfl, rfl, by decide, rfl, rfl, by decide!⟩

theorem computeRoute_legs_within_witness :
    crossEnv.distanceFilterEnabled = true
      ∧ (computeRoute crossHaversine crossEnv crossStart).2 = false
      ∧ (computeRoute crossHaversine crossEnv crossStart).1.Perm
          (buildRoute crossHaversine crossEnv.surfPoints crossStart (some crossEnv.maxStepKm))
      ∧ ∀ p, (computeRoute crossHaversine crossEnv crossStart).1[0]? = some p →
          crossHaversine crossStart p.coords ≤ crossEnv.maxStepKm :=
  have hflag : (computeRoute crossHaversine crossEnv crossStart).2 = false := by
    rw [cross_computeRoute]
  have h := computeRoute_legs_within crossHaversine crossEnv crossStart rfl hflag
  ⟨rfl, hflag, h.1, h.2.1⟩

theorem computeRoute_relaxes_witness :
    crossEnvTight.surfPoints ≠ []
      ∧ (∀ p ∈ crossEnvTight.surfPoints,
          crossEnvTight.maxStepKm < crossHaversine crossStart p.coords)
      ∧ (computeRoute crossHaversine crossEnvTight crossStart).1 ≠ []
      ∧ (computeRoute crossHaversine crossEnvTight crossStart).2 = true :=
  have hne : crossEnvTight.surfPoints ≠ [] := by decide
  have hfar : ∀ p ∈ crossEnvTight.surfPoints,
      crossEnvTight.maxStepKm < crossHaversine crossStart p.coords := by decide!
  ⟨hne, hfar, computeRoute_relaxes crossHaversine crossEnvTight crossStart hne rfl hfar⟩

end CrossingExample

/-! ## Deduplication (`loadSurfPoints`, `entryScore`, `filterClosePoints`) -/

section Dedup

/-- The `length` of a JavaScript string: the number of UTF-16 code units. -/
def jsLength (s : String) : Nat :=
  (s.data.map (fun c => if c.val < 0x10000 then 1 else 2)).sum

/-- White space and line terminators, the characters removed by `trim()`. -/
def isJsSpace (c : Char) : Bool :=
  c.val = 0x09 || c.val = 0x0A || c.val = 0x0B || c.val = 0x0C || c.val = 0x0D
    || c.val = 0x20 || c.val = 0xA0 || c.val = 0x1680
    || (0x2000 ≤ c.val && c.val ≤ 0x200A)
    || c.val = 0x2028 || c.val = 0x2029 || c.val = 0x202F || c.val = 0x205F
    || c.val = 0x3000 || c.val = 0xFEFF

/-- The characters of `s.trim()`. -/
def jsTrim (s : List Char) : List Char :=
  ((s.dropWhile isJsSpace).reverse.dropWhile isJsSpace).reverse

/-- The test `/[×x]/i.test(name)`: some character is `x`, `X` or `×`. -/
def hasVariantMarker (name : String) : Bool :=
  name.data.any (fun c => c = 'x' || c = 'X' || c = '×')

/-- The test `/surf coffee$/i.test(name.trim())`: the trimmed name ends with
`surf coffee`, letters compared without regard to ASCII case. -/
def endsWithBrand (name : String) : Bool :=
  "surf coffee".data.isSuffixOf ((jsTrim name.data).map Char.toLower)

/-- Lower case of the capital Cyrillic letters `А`..`Я`; other characters are
left alone (none of them has a lower case among the letters of `москва`). -/
def cyrillicLower (c : Char) : Char :=
  if 0x410 ≤ c.val ∧ c.val ≤ 0x42F then Char.ofNat (c.toNat + 0x20) else c

/-- The test `hay.includes(needle)` on lists of characters. -/
def includesChars (needle : List Char) : List Char → Bool
  | [] => needle.isEmpty
  | c :: rest => needle.isPrefixOf (c :: rest) || includesChars needle rest

/-- The test `address.toLowerCase().includes('москва')`. -/
def mentionsCity (address : String) : Bool :=
  includesChars "москва".data (address.data.map cyrillicLower)

/-- The function `entryScore(entry)`. -/
def entryScore (entry : Point) : ℚ :=
  let score : ℚ := 0
  let score := score + min (jsLength entry.name : ℚ) 80
  let score := score + min ((jsLength entry.address : ℚ) * 0.5) 60
  let score := if hasVariantMarker entry.name then score + 15 else score
  let score := if !endsWithBrand entry.name then score + 10 else score
  let score := if mentionsCity entry.address then score + 3 else score
  score

/-- The function `shouldReplace(existing, candidate)`. -/
def shouldReplace (existing candidate : Point) : Bool :=
  decide (entryScore candidate > entryScore existing)

variable {K : Type} [LinearOrderedField K]

/-- The body of the loop `for (let i = 0; i < result.length; i += 1)` of
`filterClosePoints`; the state is `(bestIndex, bestDistance)`, with `none` for
`bestIndex = -1` and for `bestDistance = Infinity`, and `entry` is
`(i, result[i])`. -/
def closestStep (haversineMeters : Coords → Coords → K) (threshold : K) (candidate : Point)
    (best : Option Nat × Option K) (entry : Nat × Point) : Option Nat × Option K :=
  let distance := haversineMeters entry.2.coords candidate.coords
  if decide (distance < threshold) && belowBest distance best.2 then
    (some entry.1, some distance)
  else best

/-- The whole loop over `result` for one candidate. -/
def closestScan (haversineMeters : Coords → Coords → K) (threshold : K)
    (result : List Point) (candidate : Point) : Option Nat × Option K :=
  result.enum.foldl (closestStep haversineMeters threshold candidate) (none, none)

/-- One call of the `points.forEach` callback of `filterClosePoints`.  The
index found by the loop is a position of `result`. -/
def filterStep (haversineMeters : Coords → Coords → K) (threshold : K)
    (result : List Point) (candidate : Point) : List Point :=
  match (closestScan haversineMeters threshold result candidate).1 with
  | none => result ++ [candidate]
  | some bestIndex =>
    match result[bestIndex]? with
    | none => result
    | some existing =>
      if shouldReplace existing candidate then result.set bestIndex candidate
      else result

/-- The function `filterClosePoints(points, thresholdMeters)`; a missing
threshold is `none`. -/
def filterClosePoints (haversineMeters : Coords → Coords → K) (points : List Point)
    (thresholdMeters : Option K) : List Point :=
  let threshold := thresholdMeters.getD 50
  points.foldl (filterStep haversineMeters threshold) []

/-- The decimal string `x.toFixed(digits)` of a finite `x` with `|x| < 1e21`:
whether the string starts with a minus sign, and the integer `n` whose decimal
digits, with a point before the last `digits` of them, follow.  `n` is the
integer nearest to `|x| * 10 ^ digits`, the larger one on a tie. -/
def fixedDigits (x : ℚ) (digits : Nat) : Bool × Nat :=
  if x < 0 then (true, ⌊-x * 10 ^ digits + 1 / 2⌋.toNat)
  else (false, ⌊x * 10 ^ digits + 1 / 2⌋.toNat)

/-- The number denoted by a decimal string of `fixedDigits`. -/
def digitsValue (fixed : Bool × Nat) (digits : Nat) : ℚ :=
  if fixed.1 then -((fixed.2 : ℚ) / 10 ^ digits) else (fixed.2 : ℚ) / 10 ^ digits

/-- A string returned by `toFixed`: a decimal string, or `Infinity` with or
without a minus sign. -/
inductive FixedText where
  | decimal (negative : Bool) (n : Nat)
  | infinity (negative : Bool)
deriving DecidableEq, Repr

/-- The string `x.toFixed(digits)`; an infinite `x` gives `String(x)`. -/
def toFixed (x : JsNumber) (digits : Nat) : FixedText :=
  match x with
  | JsNumber.finite value =>
    FixedText.decimal (fixedDigits value digits).1 (fixedDigits value digits).2
  | JsNumber.posInf => FixedText.infinity false
  | JsNumber.negInf => FixedText.infinity true

/-- The number denoted by a `toFixed` string: `Number(x.toFixed(digits))`. -/
def fixedValue (fixed : FixedText) (digits : Nat) : JsNumber :=
  match fixed with
  | FixedText.decimal negative n => JsNumber.finite (digitsValue (negative, n) digits)
  | FixedText.infinity false => JsNumber.posInf
  | FixedText.infinity true => JsNumber.negInf

/-- The bucket key: the two `toFixed(5)` strings of the template literal. -/
abbrev BucketKey := FixedText × FixedText

/-- A row of the parsed CSV as the `forEach` callback of `loadSurfPoints` sees
it: the numbers parsed from the latitude and longitude cells (`none` for an
empty cell or one that parses to NaN), and the cleaned name and address. -/
structure Row where
  lat : Option JsNumber
  lon : Option JsNumber
  name : String
  address : String
deriving DecidableEq, Repr

/-- The first half of the callback: `none` on the early returns, else the
`key` and the `candidate`. -/
def candidateOf (row : Row) : Option (BucketKey × Point) :=
  match row.lat, row.lon with
  | some latValue, some lonValue =>
    if row.name = "" then none
    else
      some ((toFixed latValue 5, toFixed lonValue 5),
        ⟨row.name, if row.address = "" then "Москва" else row.address,
          (fixedValue (toFixed latValue 6) 6, fixedValue (toFixed lonValue 6) 6)⟩)
  | _, _ => none

/-- The call `dedup.get(key)` on a `Map` kept as its entries in insertion order. -/
def mapGet (dedup : List (BucketKey × Point)) (key : BucketKey) : Option Point :=
  (dedup.find? (fun e => e.1 = key)).map (fun e => e.2)

/-- The call `dedup.set(key, value)`: an existing key keeps its place. -/
def mapSet (dedup : List (BucketKey × Point)) (key : BucketKey) (value : Point) :
    List (BucketKey × Point) :=
  if (mapGet dedup key).isSome then dedup.map (fun e => if e.1 = key then (key, value) else e)
  else dedup ++ [(key, value)]

/-- The `parsed.forEach` callback of `loadSurfPoints` acting on the map `dedup`. -/
def bucketStep (dedup : List (BucketKey × Point)) (row : Row) : List (BucketKey × Point) :=
  match candidateOf row with
  | none => dedup
  | some (key, candidate) =>
    match mapGet dedup key with
    | none => mapSet dedup key candidate
    | some existing =>
      if shouldReplace existing candidate then mapSet dedup key candidate else dedup

/-- The map `dedup` after `parsed.forEach`. -/
def bucketPass (rows : List Row) : List (BucketKey × Point) :=
  rows.foldl bucketStep []

/-- The array `uniquePoints`: `Array.from(dedup.values())`. -/
def uniquePoints (rows : List Row) : List Point :=
  (bucketPass rows).map (fun e => e.2)

/-- The value given to `surfPoints` by `loadSurfPoints` from the parsed rows. -/
def loadSurfPoints (haversineMeters : Coords → Coords → K) (rows : List Row) : List Point :=
  filterClosePoints haversineMeters (uniquePoints rows) (some 50)

/-- A point read back as a row: its coordinates as the numbers of the latitude
and longitude cells, its name and address as the text cells. -/
def Point.toRow (p : Point) : Row := ⟨some p.coords.1, some p.coords.2, p.name, p.address⟩

end Dedup

/-! ## Properties of the proximity pass -/

section ProximityProofs

variable {K : Type} [LinearOrderedField K]

/-- What the state of the loop over `result` says once the positions below `m`
have been compared with the candidate: either none of them is within the
threshold, or the state holds a position `j` within the threshold that is at
least as close as each of them and strictly closer than each position before
`j`. -/
def ClosestInv (haversineMeters : Coords → Coords → K) (threshold : K)
    (result : List Point) (candidate : Point) (m : Nat)
    (best : Option Nat × Option K) : Prop :=
  (best = (none, none) ∧ ∀ i p, i < m → result[i]? = some p →
      ¬ haversineMeters p.coords candidate.coords < threshold)
  ∨ (∃ j e, best = (some j, some (haversineMeters e.coords candidate.coords))
      ∧ result[j]? = some e
      ∧ haversineMeters e.coords candidate.coords < threshold
      ∧ (∀ i p, i < m → result[i]? = some p →
          haversineMeters p.coords candidate.coords < threshold →
          haversineMeters e.coords candidate.coords ≤ haversineMeters p.coords candidate.coords)
      ∧ (∀ i p, i < j → result[i]? = some p →
          haversineMeters p.coords candidate.coords < threshold →
          haversineMeters e.coords candidate.coords < haversineMeters p.coords candidate.coords))

theorem closestStep_inv (haversineMeters : Coords → Coords → K) (threshold : K)
    (result : List Point) (candidate : Point) (m : Nat) (x : Point)
    (best : Option Nat × Option K) (hx : result[m]? = some x)
    (h : ClosestInv haversineMeters threshold result candidate m best) :
    ClosestInv haversineMeters threshold result candidate (m + 1)
      (closestStep haversineMeters threshold candidate best (m, x)) := by
  unfold closestStep
  simp only
  have hcase : ∀ i p, i < m + 1 → result[i]? = some p → i < m ∨ (i = m ∧ p = x) := by
    intro i p hi hp
    rcases Nat.lt_succ_iff_lt_or_eq.mp hi with h1 | h1
    · exact Or.inl h1
    · subst h1
      rw [hx] at hp
      exact Or.inr ⟨rfl, (Option.some.inj hp).symm⟩
  rcases h with ⟨hb, hall⟩ | ⟨j, e, hb, hje, hwithin, hmin, hfirst⟩
  · subst hb
    by_cases hw : haversineMeters x.coords candidate.coords < threshold
    · simp only [hw, decide_True, belowBest, Bool.and_self, if_true]
      refine Or.inr ⟨m, x, rfl, hx, hw, fun i p hi hp hpw => ?_, fun i p hi hp hpw => ?_⟩
      · rcases hcase i p hi hp with h1 | ⟨_, h1⟩
        · exact absurd hpw (hall i p h1 hp)
        · subst h1; exact le_refl _
      · exact absurd hpw (hall i p hi hp)
    · simp only [hw, decide_False, Bool.false_and, Bool.false_eq_true, if_false]
      refine Or.inl ⟨rfl, fun i p hi hp => ?_⟩
      rcases hcase i p hi hp with h1 | ⟨_, h1⟩
      · exact hall i p h1 hp
      · subst h1; exact hw
  · subst hb
    by_cases hc : (decide (haversineMeters x.coords candidate.coords < threshold)
        && belowBest (haversineMeters x.coords candidate.coords)
            (some (haversineMeters e.coords candidate.coords))) = true
    · simp only [hc, if_true]
      rw [Bool.and_eq_true] at hc
      have hw : haversineMeters x.coords candidate.coords < threshold := by simpa using hc.1
      have hlt : haversineMeters x.coords candidate.coords
          < haversineMeters e.coords candidate.coords := by simpa [belowBest] using hc.2
      refine Or.inr ⟨m, x, rfl, hx, hw, fun i p hi hp hpw => ?_, fun i p hi hp hpw => ?_⟩
      · rcases hcase i p hi hp with h1 | ⟨_, h1⟩
        · exact le_trans (le_of_lt hlt) (hmin i p h1 hp hpw)
        · subst h1; exact le_refl _
      · exact lt_of_lt_of_le hlt (hmin i p hi hp hpw)
    · simp only [hc]
      refine Or.inr ⟨j, e, rfl, hje, hwithin, fun i p hi hp hpw => ?_, hfirst⟩
      rcases hcase i p hi hp with h1 | ⟨_, h1⟩
      · exact hmin i p h1 hp hpw
      · subst h1
        rw [Bool.and_eq_true, not_and] at hc
        have hnlt := hc (by simpa using hpw)
        simp only [belowBest, decide_eq_true_eq, not_lt] at hnlt
        exact hnlt

theorem closest_foldl_inv (haversineMeters : Coords → Coords → K) (threshold : K)
    (result : List Point) (candidate : Point) (rest : List Point) (m : Nat)
    (best : Option Nat × Option K) (hrest : result.drop m = rest)
    (h : ClosestInv haversineMeters threshold result candidate m best) :
    ClosestInv haversineMeters threshold result candidate (m + rest.length)
      ((rest.enumFrom m).foldl (closestStep haversineMeters threshold candidate) best) := by
  induction rest generalizing m best with
  | nil => simpa using h
  | cons x tl ih =>
    have hx : result[m]? = some x := by
      have h0 : (result.drop m)[0]? = some x := by rw [hrest, List.getElem?_cons_zero]
      rw [List.getElem?_drop] at h0
      simpa using h0
    have htl : result.drop (m + 1) = tl := by
      rw [← List.tail_drop, hrest]
      rfl
    rw [List.enumFrom_cons, List.foldl_cons]
    have := ih (m + 1) _ htl
      (closestStep_inv haversineMeters threshold result candidate m x best hx h)
    rw [List.length_cons]
    have hadd : m + (tl.length + 1) = m + 1 + tl.length := by omega
    rw [hadd]
    exact this

/-- The result of the loop over the whole of `result`. -/
theorem closestScan_inv (haversineMeters : Coords → Coords → K) (threshold : K)
    (result : List Point) (candidate : Point) :
    ClosestInv haversineMeters threshold result candidate result.length
      (closestScan haversineMeters threshold result candidate) := by
  have h := closest_foldl_inv haversineMeters threshold result candidate result 0 (none, none)
    rfl (Or.inl ⟨rfl, fun i p hi => absurd hi (Nat.not_lt_zero i)⟩)
  simpa [closestScan, List.enum] using h

/-- Nothing within the threshold: the loop leaves `bestIndex = -1`. -/
theorem closestScan_none (haversineMeters : Coords → Coords → K) (threshold : K)
    (result : List Point) (candidate : Point)
    (hfar : ∀ (i : Nat) (p : Point), result[i]? = some p →
      ¬ haversineMeters p.coords candidate.coords < threshold) :
    (closestScan haversineMeters threshold result candidate).1 = none := by
  rcases closestScan_inv haversineMeters threshold result candidate with
    ⟨hb, _⟩ | ⟨j, e, _, hje, hwithin, _, _⟩
  · rw [hb]
  · exact absurd hwithin (hfar j e hje)

/-- The loop ends on the lowest position among those at minimum distance
within the threshold. -/
theorem closestScan_some (haversineMeters : Coords → Coords → K) (threshold : K)
    (result : List Point) (candidate : Point) (j : Nat) (e : Point)
    (hje : result[j]? = some e)
    (hwithin : haversineMeters e.coords candidate.coords < threshold)
    (hmin : ∀ (i : Nat) (p : Point), result[i]? = some p →
      haversineMeters p.coords candidate.coords < threshold →
      haversineMeters e.coords candidate.coords ≤ haversineMeters p.coords candidate.coords)
    (hfirst : ∀ i p, i < j → result[i]? = some p →
      haversineMeters p.coords candidate.coords < threshold →
      haversineMeters e.coords candidate.coords < haversineMeters p.coords candidate.coords) :
    (closestScan haversineMeters threshold result candidate).1 = some j := by
  have hjlt : j < result.length := (List.getElem?_eq_some.mp hje).1
  rcases closestScan_inv haversineMeters threshold result candidate with
    ⟨_, hall⟩ | ⟨j2, e2, hb, hje2, hwithin2, hmin2, hfirst2⟩
  · exact absurd hwithin (hall j e hjlt hje)
  · rw [hb]
    have hj2lt : j2 < result.length := (List.getElem?_eq_some.mp hje2).1
    rcases Nat.lt_trichotomy j2 j with hlt | heq | hgt
    · exact absurd (hmin2 j e hjlt hje hwithin) (not_le.mpr (hfirst j2 e2 hlt hje2 hwithin2))
    · rw [heq]
    · exact absurd (hmin j2 e2 hje2 hwithin2) (not_le.mpr (hfirst2 j e hgt hje hwithin))

theorem filterClosePoints_append (haversineMeters : Coords → Coords → K)
    (points : List Point) (candidate : Point) (thresholdMeters : Option K) :
    filterClosePoints haversineMeters (points ++ [candidate]) thresholdMeters
      = filterStep haversineMeters (thresholdMeters.getD 50)
          (filterClosePoints haversineMeters points thresholdMeters) candidate := by
  simp [filterClosePoints, List.foldl_append]

/-- **C10** (the proximity pass compares with the closest accepted point).  Let
`R = filterClosePoints(xs, t)`.  When no point of `R` is at distance `< t` from
the candidate `c`, `filterClosePoints(xs ++ [c], t)` is `R ++ [c]`.  Otherwise,
for the position `j` of a point of `R` at minimum distance from `c` among those
at distance `< t`, the lowest such position on equal distances, it is `R` with
position `j` replaced by `c` when `entryScore(c) > entryScore(R[j])`, and `R`
when not. -/
theorem filterClosePoints_snoc (haversineMeters : Coords → Coords → K) (xs : List Point)
    (c : Point) (t : K) :
    ((∀ (i : Nat) (p : Point), (filterClosePoints haversineMeters xs (some t))[i]? = some p →
          ¬ haversineMeters p.coords c.coords < t) →
        filterClosePoints haversineMeters (xs ++ [c]) (some t)
          = filterClosePoints haversineMeters xs (some t) ++ [c])
      ∧ ∀ j e, (filterClosePoints haversineMeters xs (some t))[j]? = some e →
          haversineMeters e.coords c.coords < t →
          (∀ (i : Nat) (p : Point), (filterClosePoints haversineMeters xs (some t))[i]? = some p →
            haversineMeters p.coords c.coords < t →
            haversineMeters e.coords c.coords ≤ haversineMeters p.coords c.coords) →
          (∀ i p, i < j → (filterClosePoints haversineMeters xs (some t))[i]? = some p →
            haversineMeters p.coords c.coords < t →
            haversineMeters e.coords c.coords ≠ haversineMeters p.coords c.coords) →
          filterClosePoints haversineMeters (xs ++ [c]) (some t)
            = if entryScore c > entryScore e then
                (filterClosePoints haversineMeters xs (some t)).set j c
              else filterClosePoints haversineMeters xs (some t) := by
  rw [filterClosePoints_append]
  simp only [Option.getD_some]
  refine ⟨fun hfar => ?_, fun j e hje hwithin hmin hfirst => ?_⟩
  · unfold filterStep
    rw [closestScan_none haversineMeters t _ c hfar]
  · unfold filterStep
    rw [closestScan_some haversineMeters t _ c j e hje hwithin hmin
      (fun i p hi hp hpw => lt_of_le_of_ne (hmin i p hp hpw) (hfirst i p hi hp hpw))]
    simp only [hje, shouldReplace, decide_eq_true_eq]

theorem mem_of_getElem?_some {α : Type} (l : List α) (i : Nat) (a : α)
    (h : l[i]? = some a) : a ∈ l := by
  obtain ⟨hlt, heq⟩ := List.getElem?_eq_some.mp h
  rw [← heq]
  exact List.getElem_mem hlt

/-- The two outcomes of one call of the callback: the candidate is appended
when nothing accepted is within the threshold, else it is compared by score
with an accepted point within the threshold. -/
theorem filterStep_cases (haversineMeters : Coords → Coords → K) (threshold : K)
    (result : List Point) (candidate : Point) :
    (filterStep haversineMeters threshold result candidate = result ++ [candidate]
        ∧ ∀ p ∈ result, ¬ haversineMeters p.coords candidate.coords < threshold)
      ∨ ∃ j e, result[j]? = some e
          ∧ haversineMeters e.coords candidate.coords < threshold
          ∧ filterStep haversineMeters threshold result candidate
              = if shouldReplace e candidate = true then result.set j candidate else result := by
  unfold filterStep
  rcases closestScan_inv haversineMeters threshold result candidate with
    ⟨hb, hall⟩ | ⟨j, e, hb, hje, hwithin, _, _⟩
  · refine Or.inl ⟨by rw [hb], fun p hp => ?_⟩
    obtain ⟨i, hi, hget⟩ := List.getElem_of_mem hp
    exact hall i p hi (by rw [List.getElem?_eq_getElem hi, hget])
  · refine Or.inr ⟨j, e, hje, hwithin, ?_⟩
    rw [hb]
    simp only [hje]

/-- The accepted points are points of the input. -/
theorem filterClosePoints_mem (haversineMeters : Coords → Coords → K) (points : List Point)
    (thresholdMeters : Option K) :
    ∀ p ∈ filterClosePoints haversineMeters points thresholdMeters, p ∈ points := by
  induction points using List.reverseRecOn with
  | nil => intro p hp; simp [filterClosePoints] at hp
  | append_singleton ys c ih =>
    intro p hp
    rw [filterClosePoints_append] at hp
    rcases filterStep_cases haversineMeters (thresholdMeters.getD 50)
      (filterClosePoints haversineMeters ys thresholdMeters) c with
      ⟨heq, _⟩ | ⟨j, e, _, _, heq⟩
    · rw [heq] at hp
      rcases List.mem_append.mp hp with h1 | h1
      · exact List.mem_append_left _ (ih p h1)
      · exact List.mem_append_right _ h1
    · rw [heq] at hp
      split at hp
      · rcases List.mem_or_eq_of_mem_set hp with h1 | h1
        · exact List.mem_append_left _ (ih p h1)
        · rw [h1]; exact List.mem_append_right _ (List.mem_singleton_self _)
      · exact List.mem_append_left _ (ih p hp)

end ProximityProofs

/-! ## Three entries for one venue on Arbat -/

section NearbyExample

/-- Great-circle distance in metres between two points of one meridian: the
difference of latitude times `6371000 * π / 180`, which is 111195 metres per
degree to the metre. -/
def meridianMeters (a b : Coords) : ℚ := 111195 * |a.latitude - b.latitude|

/-- Three rows on the meridian 37.6 E: the second is 60 m north of the first,
the third lies between them, 28 m from the first and 32 m from the second. -/
def nearbyRows : List Row :=
  [⟨some (JsNumber.finite 55.75), some (JsNumber.finite 37.6), "Surf Coffee", ""⟩,
   ⟨some (JsNumber.finite 55.75054), some (JsNumber.finite 37.6), "Surf Coffee x Arbat",
     "Москва"⟩,
   ⟨some (JsNumber.finite 55.75025), some (JsNumber.finite 37.6),
     "Surf Coffee x Smolenskaya", "Москва, Арбат 1"⟩]

/-- The three points made from the rows, in source order. -/
def nearbyPoints : List Point :=
  [⟨"Surf Coffee", "Москва", deg 55.75 37.6⟩,
   ⟨"Surf Coffee x Arbat", "Москва", deg 55.75054 37.6⟩,
   ⟨"Surf Coffee x Smolenskaya", "Москва, Арбат 1", deg 55.75025 37.6⟩]

end NearbyExample

/-! ## Properties of the bucket pass -/

section BucketProofs

/-- Following the words of the specification: the distinct keys of a list, each
at the place of its first appearance. -/
def firstAppearance : List BucketKey → List BucketKey
  | [] => []
  | k :: rest => k :: (firstAppearance rest).filter (fun k2 => decide (k2 ≠ k))

theorem firstAppearance_mem (keys : List BucketKey) (k : BucketKey) :
    k ∈ firstAppearance keys ↔ k ∈ keys := by
  induction keys with
  | nil => simp [firstAppearance]
  | cons a rest ih =>
    simp only [firstAppearance, List.mem_cons, List.mem_filter, decide_eq_true_eq, ih]
    constructor
    · rintro (h | ⟨h, _⟩)
      · exact Or.inl h
      · exact Or.inr h
    · intro h
      by_cases hka : k = a
      · exact Or.inl hka
      · rcases h with h | h
        · exact Or.inl h
        · exact Or.inr ⟨h, hka⟩

theorem firstAppearance_nodup (keys : List BucketKey) : (firstAppearance keys).Nodup := by
  induction keys with
  | nil => exact List.nodup_nil
  | cons a rest ih =>
    simp only [firstAppearance]
    apply List.Nodup.cons
    · simp [List.mem_filter]
    · exact ih.filter _

theorem firstAppearance_snoc (keys : List BucketKey) (k : BucketKey) :
    firstAppearance (keys ++ [k])
      = if k ∈ keys then firstAppearance keys else firstAppearance keys ++ [k] := by
  induction keys with
  | nil => simp [firstAppearance]
  | cons a rest ih =>
    rw [List.cons_append]
    simp only [firstAppearance]
    rw [ih]
    by_cases hka : k = a
    · subst hka
      by_cases hin : k ∈ rest
      · simp [hin]
      · simp [hin, List.filter_append]
    · by_cases hin : k ∈ rest
      · simp [hin]
      · simp [hin, hka, List.filter_append]

theorem mapGet_eq_none (dedup : List (BucketKey × Point)) (key : BucketKey) :
    mapGet dedup key = none ↔ key ∉ dedup.map (fun e => e.1) := by
  unfold mapGet
  simp only [Option.map_eq_none', List.find?_eq_none, decide_eq_true_eq, List.mem_map, not_exists,
    not_and]

theorem mapGet_mem (dedup : List (BucketKey × Point)) (key : BucketKey) (p : Point)
    (h : mapGet dedup key = some p) : (key, p) ∈ dedup := by
  unfold mapGet at h
  simp only [Option.map_eq_some'] at h
  obtain ⟨e, he, hp⟩ := h
  have hmem := List.mem_of_find?_eq_some he
  have hkey := List.find?_some he
  simp only [decide_eq_true_eq] at hkey
  rw [← hkey, ← hp]
  exact hmem

theorem mapGet_of_mem (dedup : List (BucketKey × Point)) (key : BucketKey) (p : Point)
    (hnodup : (dedup.map (fun e => e.1)).Nodup) (h : (key, p) ∈ dedup) :
    mapGet dedup key = some p := by
  induction dedup with
  | nil => cases h
  | cons x rest ih =>
    rw [List.map_cons, List.nodup_cons] at hnodup
    unfold mapGet
    rw [List.find?_cons]
    by_cases hx : x.1 = key
    · simp only [hx, decide_True, Option.map_some']
      rcases List.mem_cons.mp h with h1 | h1
      · rw [← h1]
      · exfalso
        apply hnodup.1
        rw [hx]
        exact List.mem_map.mpr ⟨(key, p), h1, rfl⟩
    · simp only [hx, decide_False]
      rcases List.mem_cons.mp h with h1 | h1
      · exact absurd (by rw [← h1]) hx
      · exact ih hnodup.2 h1

theorem bucketPass_snoc (rows : List Row) (row : Row) :
    bucketPass (rows ++ [row]) = bucketStep (bucketPass rows) row := by
  simp [bucketPass, List.foldl_append]

/-- What the map holds after a list of rows, in terms of the candidates
`(key, point)` made from the rows that pass the checks: its keys are the keys of
the candidates in the order of first appearance, and the point stored under a
key has a higher score than each earlier candidate of that key and at least the
score of each later one. -/
def BucketSpec (cands dedup : List (BucketKey × Point)) : Prop :=
  dedup.map (fun e => e.1) = firstAppearance (cands.map (fun e => e.1))
    ∧ ∀ k p, (k, p) ∈ dedup → ∃ pre post, cands = pre ++ (k, p) :: post
        ∧ (∀ q, (k, q) ∈ pre → entryScore q < entryScore p)
        ∧ ∀ q, (k, q) ∈ post → entryScore q ≤ entryScore p

theorem bucketStep_spec (cands dedup : List (BucketKey × Point)) (row : Row)
    (key : BucketKey) (c : Point) (hrow : candidateOf row = some (key, c))
    (h : BucketSpec cands dedup) :
    BucketSpec (cands ++ [(key, c)]) (bucketStep dedup row) := by
  obtain ⟨hkeys, hbest⟩ := h
  have hnodup : (dedup.map (fun e => e.1)).Nodup := by
    rw [hkeys]; exact firstAppearance_nodup _
  have hmemkeys : ∀ k, k ∈ dedup.map (fun e => e.1) ↔ k ∈ cands.map (fun e => e.1) := by
    intro k; rw [hkeys]; exact firstAppearance_mem _ k
  -- an entry under another key is untouched by the new candidate
  have hother : ∀ k p, (k, p) ∈ dedup → (k = key → entryScore c ≤ entryScore p) →
      ∃ pre post, cands ++ [(key, c)] = pre ++ (k, p) :: post
        ∧ (∀ q, (k, q) ∈ pre → entryScore q < entryScore p)
        ∧ ∀ q, (k, q) ∈ post → entryScore q ≤ entryScore p := by
    intro k p hkp hle
    obtain ⟨pre, post, hsplit, hpre, hpost⟩ := hbest k p hkp
    refine ⟨pre, post ++ [(key, c)], by rw [hsplit]; simp, hpre, fun q hq => ?_⟩
    rcases List.mem_append.mp hq with h1 | h1
    · exact hpost q h1
    · rw [List.mem_singleton] at h1
      have hk : k = key := congrArg Prod.fst h1
      have hqc : q = c := congrArg Prod.snd h1
      rw [hqc]
      exact hle hk
  unfold bucketStep
  rw [hrow]
  simp only
  cases hget : mapGet dedup key with
  | none =>
    have hnot : key ∉ dedup.map (fun e => e.1) := (mapGet_eq_none dedup key).mp hget
    have hnotc : key ∉ cands.map (fun e => e.1) := fun hc => hnot ((hmemkeys key).mpr hc)
    simp only [mapSet, hget, Option.isSome_none, Bool.false_eq_true, if_false]
    constructor
    · rw [List.map_append, List.map_append, List.map_singleton, firstAppearance_snoc, hkeys,
        if_neg hnotc]
    · intro k p hkp
      rcases List.mem_append.mp hkp with h1 | h1
      · apply hother k p h1
        intro hk
        exfalso
        apply hnot
        rw [← hk]
        exact List.mem_map.mpr ⟨(k, p), h1, rfl⟩
      · rw [List.mem_singleton] at h1
        have hk : k = key := congrArg Prod.fst h1
        have hp : p = c := congrArg Prod.snd h1
        subst hk
        subst hp
        refine ⟨cands, [], rfl, fun q hq => ?_, fun q hq => by cases hq⟩
        exact absurd (List.mem_map.mpr ⟨(k, q), hq, rfl⟩) hnotc
  | some e =>
    have hke : (key, e) ∈ dedup := mapGet_mem dedup key e hget
    have hkin : key ∈ cands.map (fun e => e.1) :=
      (hmemkeys key).mp (List.mem_map.mpr ⟨(key, e), hke, rfl⟩)
    simp only
    by_cases hrep : shouldReplace e c = true
    · have hlt : entryScore e < entryScore c := by
        simpa [shouldReplace] using hrep
      simp only [hrep, if_true, mapSet, hget, Option.isSome_some]
      constructor
      · rw [List.map_append, List.map_singleton, firstAppearance_snoc, if_pos hkin, ← hkeys,
          List.map_map]
        apply List.map_congr_left
        intro x _
        simp only [Function.comp]
        split
        · rename_i hx; exact hx.symm
        · rfl
      · intro k p hkp
        obtain ⟨x, hx, hxe⟩ := List.mem_map.mp hkp
        by_cases hxk : x.1 = key
        · rw [if_pos hxk] at hxe
          have hk : key = k := congrArg Prod.fst hxe
          have hp : c = p := congrArg Prod.snd hxe
          subst hk
          subst hp
          obtain ⟨pre, post, hsplit, hpre, hpost⟩ := hbest key e hke
          refine ⟨cands, [], rfl, fun q hq => ?_, fun q hq => by cases hq⟩
          rw [hsplit] at hq
          rcases List.mem_append.mp hq with h1 | h1
          · exact lt_trans (hpre q h1) hlt
          · rcases List.mem_cons.mp h1 with h2 | h2
            · have hqe : q = e := congrArg Prod.snd h2
              rw [hqe]; exact hlt
            · exact lt_of_le_of_lt (hpost q h2) hlt
        · rw [if_neg hxk] at hxe
          rw [hxe] at hx
          apply hother k p hx
          intro hk
          exfalso
          apply hxk
          rw [hxe]
          exact hk
    · have hle : entryScore c ≤ entryScore e := by
        simpa [shouldReplace] using hrep
      rw [if_neg hrep]
      constructor
      · rw [List.map_append, List.map_singleton, firstAppearance_snoc, if_pos hkin, hkeys]
      · intro k p hkp
        apply hother k p hkp
        intro hk
        subst hk
        have hp := mapGet_of_mem dedup k p hnodup hkp
        rw [hget] at hp
        rw [← Option.some.inj hp]
        exact hle

theorem bucketPass_spec (rows : List Row) :
    BucketSpec (rows.filterMap candidateOf) (bucketPass rows) := by
  induction rows using List.reverseRecOn with
  | nil =>
    refine ⟨rfl, fun k p hkp => ?_⟩
    simp [bucketPass] at hkp
  | append_singleton rows row ih =>
    rw [bucketPass_snoc, List.filterMap_append]
    cases hrow : candidateOf row with
    | none =>
      simp only [List.filterMap_cons, hrow, List.filterMap_nil, List.append_nil]
      unfold bucketStep
      rw [hrow]
      exact ih
    | some kc =>
      simp only [List.filterMap_cons, hrow, List.filterMap_nil]
      exact bucketStep_spec _ _ row kc.1 kc.2 hrow ih

/-- **C9** (exact-bucket pass).  Let the candidates be the pairs `(key, point)`
made, in source order, from the rows that pass the checks of the callback.
After the bucket pass the map holds each key of the candidates once and no other
key; the point stored under a key is a candidate of that key whose score is
higher than the score of each earlier candidate of the key and not lower than
the score of each later one; and the keys stand in the order of their first
appearance among the candidates. -/
theorem bucketPass_survivors (rows : List Row) :
    ((bucketPass rows).map (fun e => e.1)).Nodup
      ∧ (∀ k, k ∈ (bucketPass rows).map (fun e => e.1)
          ↔ k ∈ (rows.filterMap candidateOf).map (fun e => e.1))
      ∧ (∀ k p, (k, p) ∈ bucketPass rows →
          ∃ pre post, rows.filterMap candidateOf = pre ++ (k, p) :: post
            ∧ (∀ q, (k, q) ∈ pre → entryScore q < entryScore p)
            ∧ ∀ q, (k, q) ∈ post → entryScore q ≤ entryScore p)
      ∧ (bucketPass rows).map (fun e => e.1)
          = firstAppearance ((rows.filterMap candidateOf).map (fun e => e.1)) := by
  obtain ⟨hkeys, hbest⟩ := bucketPass_spec rows
  refine ⟨?_, fun k => ?_, hbest, hkeys⟩
  · rw [hkeys]; exact firstAppearance_nodup _
  · rw [hkeys]; exact firstAppearance_mem _ k

end BucketProofs

/-! ## Running the deduplication on its own output -/

section RerunProofs

variable {K : Type} [LinearOrderedField K]

/-- The bucket key of a point read back as a row. -/
def pointKey5 (p : Point) : BucketKey := (toFixed p.coords.1 5, toFixed p.coords.2 5)

theorem floor_nat_add_half (n : Nat) : ⌊(n : ℚ) + 1 / 2⌋.toNat = n := by
  have h : ⌊(n : ℚ) + 1 / 2⌋ = (n : ℤ) := by
    rw [Int.floor_eq_iff]
    constructor
    · push_cast; linarith
    · push_cast; linarith
  rw [h, Int.toNat_natCast]

/-- A finite number with `digits` decimals is its own `toFixed(digits)` value. -/
theorem digitsValue_fixedDigits (fixed : Bool × Nat) (digits : Nat) :
    digitsValue (fixedDigits (digitsValue fixed digits) digits) digits
      = digitsValue fixed digits := by
  obtain ⟨neg, n⟩ := fixed
  have hpow : (0 : ℚ) < 10 ^ digits := by positivity
  have hcancel : (n : ℚ) / 10 ^ digits * 10 ^ digits = n := div_mul_cancel₀ _ (ne_of_gt hpow)
  have hnonneg : (0 : ℚ) ≤ (n : ℚ) / 10 ^ digits := by positivity
  cases neg with
  | false =>
    simp only [digitsValue, Bool.false_eq_true, if_false]
    unfold fixedDigits
    rw [if_neg (not_lt.mpr hnonneg), hcancel, floor_nat_add_half]
    simp
  | true =>
    by_cases hn : n = 0
    · subst hn
      have hv : digitsValue (true, 0) digits = 0 := by simp [digitsValue]
      have hfloor : ⌊(1 : ℚ) / 2⌋.toNat = 0 := by
        have h0 := floor_nat_add_half 0
        simpa using h0
      have ht : fixedDigits 0 digits = (false, 0) := by
        unfold fixedDigits
        rw [if_neg (lt_irrefl _), zero_mul, zero_add, hfloor]
      rw [hv, ht]
      simp [digitsValue]
    · have hnpos : (0 : ℚ) < (n : ℚ) / 10 ^ digits := by
        have : (0 : ℚ) < n := by exact_mod_cast Nat.pos_of_ne_zero hn
        positivity
      have ht : fixedDigits (digitsValue (true, n) digits) digits = (true, n) := by
        simp only [digitsValue, if_true]
        unfold fixedDigits
        rw [if_pos (by linarith), neg_neg, hcancel, floor_nat_add_half]
      rw [ht]

/-- A number read from a `toFixed(digits)` string is its own `toFixed(digits)`
value. -/
theorem fixedValue_toFixed (fixed : FixedText) (digits : Nat) :
    fixedValue (toFixed (fixedValue fixed digits) digits) digits = fixedValue fixed digits := by
  cases fixed with
  | decimal negative n =>
    simp only [fixedValue, toFixed]
    rw [digitsValue_fixedDigits]
  | infinity negative =>
    cases negative <;> rfl

/-- A point made by the callback yields itself when it is read back as a row. -/
theorem candidateOf_toRow (row : Row) (key : BucketKey) (p : Point)
    (h : candidateOf row = some (key, p)) :
    candidateOf p.toRow = some (pointKey5 p, p) := by
  unfold candidateOf at h
  cases hlat : row.lat with
  | none => rw [hlat] at h; simp at h
  | some latValue =>
    cases hlon : row.lon with
    | none => rw [hlat, hlon] at h; simp at h
    | some lonValue =>
      rw [hlat, hlon] at h
      simp only at h
      by_cases hname : row.name = ""
      · rw [if_pos hname] at h; cases h
      · rw [if_neg hname] at h
        have hp : p = ⟨row.name, if row.address = "" then "Москва" else row.address,
            (fixedValue (toFixed latValue 6) 6, fixedValue (toFixed lonValue 6) 6)⟩ :=
          (congrArg Prod.snd (Option.some.inj h)).symm
        have haddr : (if row.address = "" then "Москва" else row.address) ≠ "" := by
          split
          · decide
          · assumption
        subst hp
        simp only [candidateOf, Point.toRow, pointKey5, if_neg hname, if_neg haddr,
          fixedValue_toFixed]

/-- Every point of `uniquePoints` was made by the callback from some row. -/
theorem uniquePoints_from_row (rows : List Row) (p : Point) (hp : p ∈ uniquePoints rows) :
    ∃ row key, candidateOf row = some (key, p) := by
  unfold uniquePoints at hp
  obtain ⟨⟨k, q⟩, hmem, hq⟩ := List.mem_map.mp hp
  simp only at hq
  subst hq
  obtain ⟨pre, post, hsplit, _, _⟩ := (bucketPass_spec rows).2 k q hmem
  have hin : (k, q) ∈ rows.filterMap candidateOf := by
    rw [hsplit]
    exact List.mem_append_right _ (List.mem_cons_self _ _)
  obtain ⟨row, _, hrow⟩ := List.mem_filterMap.mp hin
  exact ⟨row, k, hrow⟩

/-- Rows read back from points with distinct keys all open a bucket of their
own. -/
theorem bucketPass_toRow (ys : List Point)
    (hnormal : ∀ p ∈ ys, candidateOf p.toRow = some (pointKey5 p, p))
    (hkeys : (ys.map pointKey5).Nodup) :
    bucketPass (ys.map Point.toRow) = ys.map (fun p => (pointKey5 p, p)) := by
  induction ys using List.reverseRecOn with
  | nil => rfl
  | append_singleton ys c ih =>
    rw [List.map_append, List.nodup_append] at hkeys
    obtain ⟨hys, _, hdisj⟩ := hkeys
    rw [List.map_append, List.map_singleton, bucketPass_snoc,
      ih (fun p hp => hnormal p (List.mem_append_left _ hp)) hys]
    unfold bucketStep
    rw [hnormal c (List.mem_append_right _ (List.mem_singleton_self _))]
    have hnone : mapGet (ys.map (fun p => (pointKey5 p, p))) (pointKey5 c) = none := by
      rw [mapGet_eq_none, List.map_map]
      intro hmem
      exact hdisj hmem (List.mem_singleton_self _)
    simp only [hnone, mapSet, Option.isSome_none, Bool.false_eq_true, if_false,
      List.map_append, List.map_singleton]

/-- Points that are each at least the threshold away from the points before
them are all accepted, in order. -/
theorem filterClosePoints_of_pairwise (haversineMeters : Coords → Coords → K)
    (ys : List Point) (thresholdMeters : Option K)
    (hfar : ys.Pairwise
      (fun p q => thresholdMeters.getD 50 ≤ haversineMeters p.coords q.coords)) :
    filterClosePoints haversineMeters ys thresholdMeters = ys := by
  induction ys using List.reverseRecOn with
  | nil => rfl
  | append_singleton ys c ih =>
    rw [List.pairwise_append] at hfar
    obtain ⟨hys, _, hlast⟩ := hfar
    rw [filterClosePoints_append, ih hys]
    unfold filterStep
    rw [closestScan_none haversineMeters _ ys c]
    intro i p hp
    exact not_lt.mpr (hlast p (mem_of_getElem?_some ys i p hp) c (List.mem_singleton_self _))

/-- **C8, as the code has it** (dedup idempotence).  When the points that the
two-pass deduplication returns have pairwise distinct 5-decimal keys and each is
at least 50 metres from every point before it, running the deduplication on
these points read back as rows returns the same list. -/
theorem loadSurfPoints_rerun (haversineMeters : Coords → Coords → K) (rows : List Row)
    (hkeys : ((loadSurfPoints haversineMeters rows).map pointKey5).Nodup)
    (hfar : (loadSurfPoints haversineMeters rows).Pairwise
      (fun p q => 50 ≤ haversineMeters p.coords q.coords)) :
    loadSurfPoints haversineMeters ((loadSurfPoints haversineMeters rows).map Point.toRow)
      = loadSurfPoints haversineMeters rows := by
  have hnormal : ∀ p ∈ loadSurfPoints haversineMeters rows,
      candidateOf p.toRow = some (pointKey5 p, p) := by
    intro p hp
    have hu := filterClosePoints_mem haversineMeters (uniquePoints rows) (some 50) p hp
    obtain ⟨row, key, hrow⟩ := uniquePoints_from_row rows p hu
    exact candidateOf_toRow row key p hrow
  have hunique : uniquePoints ((loadSurfPoints haversineMeters rows).map Point.toRow)
      = loadSurfPoints haversineMeters rows := by
    unfold uniquePoints
    rw [bucketPass_toRow _ hnormal hkeys, List.map_map]
    exact List.map_id _
  conv_lhs => rw [loadSurfPoints, hunique]
  exact filterClosePoints_of_pairwise haversineMeters _ (some 50) hfar

end RerunProofs

/-! ## The three entries of one venue, deduplicated twice -/

section RerunExample

/-- **C8 fails as stated.**  The first run over the three rows keeps the third
and the second point, 32 m apart; read back as rows, the second run finds the
second point within 50 m of the first with a lower score (50 against 60.5) and
drops it. -/
theorem loadSurfPoints_rerun_differs :
    (loadSurfPoints meridianMeters nearbyRows).length = 2
      ∧ (loadSurfPoints meridianMeters
          ((loadSurfPoints meridianMeters nearbyRows).map Point.toRow)).length = 1
      ∧ loadSurfPoints meridianMeters
          ((loadSurfPoints meridianMeters nearbyRows).map Point.toRow)
        ≠ loadSurfPoints meridianMeters nearbyRows := by
  decide!

theorem loadSurfPoints_rerun_witness :
    ((loadSurfPoints meridianMeters (nearbyRows.take 2)).map pointKey5).Nodup
      ∧ (loadSurfPoints meridianMeters (nearbyRows.take 2)).Pairwise
          (fun p q => 50 ≤ meridianMeters p.coords q.coords)
      ∧ loadSurfPoints meridianMeters
          ((loadSurfPoints meridianMeters (nearbyRows.take 2)).map Point.toRow)
        = loadSurfPoints meridianMeters (nearbyRows.take 2) :=
  have hkeys : ((loadSurfPoints meridianMeters (nearbyRows.take 2)).map pointKey5).Nodup := by
    decide!
  have hfar : (loadSurfPoints meridianMeters (nearbyRows.take 2)).Pairwise
      (fun p q => 50 ≤ meridianMeters p.coords q.coords) := by decide!
  ⟨hkeys, hfar, loadSurfPoints_rerun meridianMeters (nearbyRows.take 2) hkeys hfar⟩

end RerunExample

/-! ## The end of the 2-opt loop: local optimum and number of passes -/

section LocalOptimumProofs

variable {K : Type} [LinearOrderedField K]

/-- The test of the inner loop of `twoOpt` at the pair `(i, k)` on the route
`r`: `newDistance + 0.001 < currentDistance`. -/
def Improves (haversine : Coords → Coords → K) (startCoords : Coords)
    (r : List RoutePoint) (i k : Nat) : Prop :=
  routeDistance haversine (twoOptSwap r i k) startCoords + 0.001
    < routeDistance haversine r startCoords

/-- An inner loop that ends with `improved` false has adopted nothing: the
state is as on entry and the test failed at every `k`. -/
theorem twoOptInner_foldl_false (haversine : Coords → Coords → K) (startCoords : Coords)
    (i : Nat) (ks : List Nat) (st : List RoutePoint × Bool)
    (h : (ks.foldl (twoOptInner haversine startCoords i) st).2 = false) :
    ks.foldl (twoOptInner haversine startCoords i) st = st
      ∧ ∀ k ∈ ks, ¬ Improves haversine startCoords st.1 i k := by
  induction ks generalizing st with
  | nil => exact ⟨rfl, fun k hk => by cases hk⟩
  | cons k rest ih =>
    rw [List.foldl_cons] at h ⊢
    obtain ⟨hsame, hrest⟩ := ih _ h
    rw [hsame] at h
    have hno : ¬ Improves haversine startCoords st.1 i k := by
      intro himp
      unfold Improves at himp
      unfold twoOptInner at h
      simp only at h
      rw [if_pos himp] at h
      cases h
    have hstep : twoOptInner haversine startCoords i st k = st := by
      unfold Improves at hno
      unfold twoOptInner
      simp only
      rw [if_neg hno]
    rw [hsame, hstep]
    refine ⟨rfl, fun k2 hk2 => ?_⟩
    rcases List.mem_cons.mp hk2 with h1 | h1
    · rw [h1]; exact hno
    · have := hrest k2 h1
      rw [hstep] at this
      exact this

/-- An outer loop that ends with `improved` false has adopted nothing. -/
theorem twoOptOuter_foldl_false (haversine : Coords → Coords → K) (startCoords : Coords)
    (is : List Nat) (st : List RoutePoint × Bool)
    (h : (is.foldl (twoOptOuter haversine startCoords) st).2 = false) :
    is.foldl (twoOptOuter haversine startCoords) st = st
      ∧ ∀ i ∈ is, ∀ k ∈ List.range' (i + 2) (st.1.length - (i + 2)),
          ¬ Improves haversine startCoords st.1 i k := by
  induction is generalizing st with
  | nil => exact ⟨rfl, fun i hi => by cases hi⟩
  | cons i rest ih =>
    rw [List.foldl_cons] at h ⊢
    obtain ⟨hsame, hrest⟩ := ih _ h
    rw [hsame] at h
    obtain ⟨hstep, hinner⟩ := twoOptInner_foldl_false haversine startCoords i _ st h
    have houter : twoOptOuter haversine startCoords st i = st := hstep
    rw [hsame, houter]
    refine ⟨rfl, fun i2 hi2 => ?_⟩
    rcases List.mem_cons.mp hi2 with h1 | h1
    · rw [h1]; exact hinner
    · have := hrest i2 h1
      rw [houter] at this
      exact this

/-- A pass that reports no improvement returns its input, and no pair `(i, k)`
of the two loops passes the test on it. -/
theorem twoOptPass_false (haversine : Coords → Coords → K) (startCoords : Coords)
    (r : List RoutePoint) (h : (twoOptPass haversine startCoords r).2 = false) :
    (twoOptPass haversine startCoords r).1 = r
      ∧ ∀ i k, i < r.length - 2 → i + 2 ≤ k → k < r.length →
          ¬ Improves haversine startCoords r i k := by
  unfold twoOptPass at h ⊢
  obtain ⟨hsame, hall⟩ := twoOptOuter_foldl_false haversine startCoords _ (r, false) h
  rw [hsame]
  refine ⟨rfl, fun i k hi hik hk => ?_⟩
  apply hall i (List.mem_range.mpr hi) k
  rw [List.mem_range'_1]
  simp only
  omega

/-- The loop of passes ends on a route on which no pair passes the test. -/
theorem twoOptLoop_no_improving (haversine : Coords → Coords → K) (startCoords : Coords)
    (bestRoute : List RoutePoint) :
    ∀ i k, i < (twoOptLoop haversine startCoords bestRoute).length - 2 → i + 2 ≤ k →
      k < (twoOptLoop haversine startCoords bestRoute).length →
      ¬ Improves haversine startCoords (twoOptLoop haversine startCoords bestRoute) i k := by
  induction bestRoute using twoOptLoop.induct haversine startCoords with
  | case1 bestRoute himproved ih =>
    rw [twoOptLoop, if_pos himproved]
    exact ih
  | case2 bestRoute hsame =>
    rw [twoOptLoop, if_neg hsame]
    have hfalse : (twoOptPass haversine startCoords bestRoute).2 = false := by
      simpa using hsame
    obtain ⟨heq, hall⟩ := twoOptPass_false haversine startCoords bestRoute hfalse
    rw [heq]
    exact hall

/-- **C12** (2-opt stops at a local optimum).  For every route and start
coordinate, in particular for every route of at least 3 points, the route
`r = twoOpt(route, start)` admits no improving swap: for all `i`, `k` with
`i < len(r) - 2` and `i + 2 <= k < len(r)`,
`routeDistance(twoOptSwap(r, i, k), start) + 0.001 >= routeDistance(r, start)`. -/
theorem twoOpt_local_optimum (haversine : Coords → Coords → K) (route : List RoutePoint)
    (startCoords : Coords) (i k : Nat)
    (hi : i < (twoOpt haversine route startCoords).length - 2) (hik : i + 2 ≤ k)
    (hk : k < (twoOpt haversine route startCoords).length) :
    routeDistance haversine (twoOptSwap (twoOpt haversine route startCoords) i k) startCoords
        + 0.001
      ≥ routeDistance haversine (twoOpt haversine route startCoords) startCoords := by
  have hlen : ¬ route.length < 3 := by
    intro hshort
    unfold twoOpt at hi
    rw [if_pos hshort] at hi
    omega
  unfold twoOpt at hi hk ⊢
  rw [if_neg hlen] at hi hk ⊢
  exact not_lt.mp (twoOptLoop_no_improving haversine startCoords route i k hi hik hk)

/-- A property of the loop state `(bestRoute, improved)` that every run of
the inner loop body keeps is kept by a whole pass. -/
theorem twoOptPass_state_preserves (haversine : Coords → Coords → K) (startCoords : Coords)
    (Q : List RoutePoint × Bool → Prop)
    (hstep : ∀ st i k, Q st → Q (twoOptInner haversine startCoords i st k))
    (r : List RoutePoint) (hr : Q (r, false)) : Q (twoOptPass haversine startCoords r) := by
  have hinner : ∀ (i : Nat) (ks : List Nat) (st : List RoutePoint × Bool),
      Q st → Q (ks.foldl (twoOptInner haversine startCoords i) st) := by
    intro i ks
    induction ks with
    | nil => intro st h; exact h
    | cons k rest ih =>
      intro st h
      rw [List.foldl_cons]
      exact ih _ (hstep st i k h)
  have houter : ∀ (is : List Nat) (st : List RoutePoint × Bool),
      Q st → Q (is.foldl (twoOptOuter haversine startCoords) st) := by
    intro is
    induction is with
    | nil => intro st h; exact h
    | cons i rest ih =>
      intro st h
      rw [List.foldl_cons]
      exact ih _ (hinner i _ st h)
  exact houter _ _ hr

/-- A pass that reports an improvement has shortened the route by more than
0.001 km. -/
theorem twoOptPass_improved_lt (haversine : Coords → Coords → K) (startCoords : Coords)
    (r : List RoutePoint) (h : (twoOptPass haversine startCoords r).2 = true) :
    routeDistance haversine (twoOptPass haversine startCoords r).1 startCoords + 0.001
      < routeDistance haversine r startCoords := by
  have hinv := twoOptPass_state_preserves haversine startCoords
    (fun st => routeDistance haversine st.1 startCoords ≤ routeDistance haversine r startCoords
      ∧ (st.2 = true → routeDistance haversine st.1 startCoords + 0.001
          < routeDistance haversine r startCoords))
    (fun st i k hst => by
      obtain ⟨hle, hlt⟩ := hst
      unfold twoOptInner
      simp only
      split
      · rename_i hadopt
        have heps : (0 : K) < 0.001 := by norm_num
        exact ⟨by linarith, fun _ => lt_of_lt_of_le hadopt hle⟩
      · exact ⟨hle, hlt⟩)
    r ⟨le_refl _, fun hf => by cases hf⟩
  exact hinv.2 h

/-- The route `bestRoute` on entry to the pass number `n` (counted from 0)
of the loop `while (improved)`. -/
def passIter (haversine : Coords → Coords → K) (startCoords : Coords) (n : Nat)
    (route : List RoutePoint) : List RoutePoint :=
  (fun bestRoute => (twoOptPass haversine startCoords bestRoute).1)^[n] route

theorem passIter_succ (haversine : Coords → Coords → K) (startCoords : Coords) (n : Nat)
    (route : List RoutePoint) :
    passIter haversine startCoords (n + 1) route
      = passIter haversine startCoords n (twoOptPass haversine startCoords route).1 := by
  unfold passIter
  rw [Function.iterate_succ_apply]

theorem passIter_succ_pass (haversine : Coords → Coords → K) (startCoords : Coords) (n : Nat)
    (route : List RoutePoint) :
    passIter haversine startCoords (n + 1) route
      = (twoOptPass haversine startCoords (passIter haversine startCoords n route)).1 := by
  unfold passIter
  rw [Function.iterate_succ_apply']

/-- The loop of passes runs `n + 1` passes for some `n` not above the number of
orderings of the route that are shorter than it: the first `n` passes improve,
the last one does not, and its result is returned. -/
theorem twoOptLoop_passes (haversine : Coords → Coords → K) (startCoords : Coords)
    (bestRoute : List RoutePoint) :
    ∃ n, n ≤ shorterCount haversine startCoords bestRoute
      ∧ (∀ m, m < n →
          (twoOptPass haversine startCoords (passIter haversine startCoords m bestRoute)).2
            = true)
      ∧ (twoOptPass haversine startCoords (passIter haversine startCoords n bestRoute)).2
          = false
      ∧ twoOptLoop haversine startCoords bestRoute
          = (twoOptPass haversine startCoords (passIter haversine startCoords n bestRoute)).1 := by
  induction bestRoute using twoOptLoop.induct haversine startCoords with
  | case1 bestRoute himproved ih =>
    obtain ⟨n, hn, hbefore, hlast, hres⟩ := ih
    have hinv := twoOptPass_inv haversine startCoords bestRoute
    have hdec := shorterCount_lt haversine startCoords bestRoute _ hinv.1 (hinv.2.2 himproved)
    refine ⟨n + 1, by omega, fun m hm => ?_, ?_, ?_⟩
    · cases m with
      | zero => exact himproved
      | succ j =>
        rw [passIter_succ]
        exact hbefore j (by omega)
    · rw [passIter_succ]
      exact hlast
    · rw [twoOptLoop, if_pos himproved, passIter_succ]
      exact hres
  | case2 bestRoute hsame =>
    refine ⟨0, Nat.zero_le _, fun m hm => absurd hm (Nat.not_lt_zero m), ?_, ?_⟩
    · simpa [passIter] using hsame
    · rw [twoOptLoop, if_neg hsame]
      rfl

theorem shorterCount_le_factorial (haversine : Coords → Coords → K) (startCoords : Coords)
    (route : List RoutePoint) :
    shorterCount haversine startCoords route ≤ route.length.factorial := by
  unfold shorterCount
  calc List.countP _ route.permutations ≤ route.permutations.length := List.countP_le_length _
    _ = route.length.factorial := List.length_permutations route

/-- **C13** (2-opt terminates).  For every route, start coordinate and distance
function with values in a linearly ordered field (the reals among them), the
loop `while (improved)` of `twoOpt` runs finitely many passes: there is an
`n`, at most the number of orderings of the route, such that each of the first
`n` passes adopts a swap and shortens the route by more than 0.001, the pass
after them adopts none, and `twoOpt` returns the result of that pass (or the
input itself when it has fewer than 3 points). -/
theorem twoOpt_terminates (haversine : Coords → Coords → K) (route : List RoutePoint)
    (startCoords : Coords) :
    ∃ n, n ≤ route.length.factorial
      ∧ (∀ m, m < n →
          (twoOptPass haversine startCoords (passIter haversine startCoords m route)).2 = true
          ∧ routeDistance haversine (passIter haversine startCoords (m + 1) route) startCoords
              + 0.001
            < routeDistance haversine (passIter haversine startCoords m route) startCoords)
      ∧ (twoOptPass haversine startCoords (passIter haversine startCoords n route)).2 = false
      ∧ twoOpt haversine route startCoords
          = if route.length < 3 then route
            else (twoOptPass haversine startCoords
              (passIter haversine startCoords n route)).1 := by
  obtain ⟨n, hn, hbefore, hlast, hres⟩ := twoOptLoop_passes haversine startCoords route
  refine ⟨n, le_trans hn (shorterCount_le_factorial haversine startCoords route),
    fun m hm => ⟨hbefore m hm, ?_⟩, hlast, ?_⟩
  · rw [passIter_succ_pass]
    exact twoOptPass_improved_lt haversine startCoords _ (hbefore m hm)
  · unfold twoOpt
    rw [hres]

end LocalOptimumProofs

/-! ## Two facts about lists of points -/

section ListFacts

theorem map_getD_range {α : Type} (l : List α) (d : α) :
    (List.range l.length).map (fun i => l.getD i d) = l := by
  apply List.ext_getElem
  · simp
  · intro i h1 h2
    simp [List.getD_eq_getElem?_getD, List.getElem?_eq_getElem h2]

theorem indexPoints_map_toPoint (surfPoints : List Point) :
    (indexPoints surfPoints).map RoutePoint.toPoint = surfPoints := by
  apply List.ext_getElem?
  intro n
  rw [List.getElem?_map, indexPoints_getElem?]
  cases surfPoints[n]? <;> rfl

end ListFacts

/-! ## The greedy choice and its tie-break -/

section GreedyProofs

variable {K : Type} [LinearOrderedField K]

/-- The scan state after the indices `seen`, scanned in increasing order:
either nothing was within the limit, or the state holds the point at an index
`j` of `seen` that is within the limit, at least as close as every point of
`seen` within the limit, and strictly closer than those at an index below
`j`. -/
def ScanFirstInv (haversine : Coords → Coords → K) (points : List RoutePoint)
    (current : Coords) (limitKm : Option K) (seen : List Nat)
    (best : Option RoutePoint × Option K) : Prop :=
  (best = (none, none) ∧ ∀ idx ∈ seen, ∀ q, points[idx]? = some q →
      withinLimit (haversine current q.coords) limitKm = false)
  ∨ (∃ j p, best = (some p, some (haversine current p.coords))
      ∧ j ∈ seen ∧ points[j]? = some p
      ∧ withinLimit (haversine current p.coords) limitKm = true
      ∧ (∀ idx ∈ seen, ∀ q, points[idx]? = some q →
          withinLimit (haversine current q.coords) limitKm = true →
          haversine current p.coords ≤ haversine current q.coords)
      ∧ (∀ idx ∈ seen, idx < j → ∀ q, points[idx]? = some q →
          withinLimit (haversine current q.coords) limitKm = true →
          haversine current p.coords < haversine current q.coords))

theorem scanStep_first_inv (haversine : Coords → Coords → K) (points : List RoutePoint)
    (current : Coords) (limitKm : Option K) (seen : List Nat)
    (best : Option RoutePoint × Option K) (i : Nat) (hbelow : ∀ s ∈ seen, s < i)
    (h : ScanFirstInv haversine points current limitKm seen best) :
    ScanFirstInv haversine points current limitKm (seen ++ [i])
      (scanStep haversine points current limitKm best i) := by
  have hsplit : ∀ idx, idx ∈ seen ++ [i] → idx ∈ seen ∨ idx = i := by
    intro idx hidx
    rcases List.mem_append.mp hidx with h1 | h1
    · exact Or.inl h1
    · exact Or.inr (List.mem_singleton.mp h1)
  have hlast : i ∈ seen ++ [i] := List.mem_append_right _ (List.mem_singleton_self _)
  unfold scanStep
  cases hp : points[i]? with
  | none =>
    simp only
    rcases h with ⟨hb, hall⟩ | ⟨j, p, hb, hj, hget, hin, hmin, hfirst⟩
    · refine Or.inl ⟨hb, fun idx hidx q hq => ?_⟩
      rcases hsplit idx hidx with h1 | h1
      · exact hall idx h1 q hq
      · subst h1; rw [hp] at hq; cases hq
    · refine Or.inr ⟨j, p, hb, List.mem_append_left _ hj, hget, hin,
        fun idx hidx q hq hw => ?_, fun idx hidx hlt q hq hw => ?_⟩
      · rcases hsplit idx hidx with h1 | h1
        · exact hmin idx h1 q hq hw
        · subst h1; rw [hp] at hq; cases hq
      · rcases hsplit idx hidx with h1 | h1
        · exact hfirst idx h1 hlt q hq hw
        · subst h1; rw [hp] at hq; cases hq
  | some x =>
    simp only
    rcases h with ⟨hb, hall⟩ | ⟨j, p, hb, hj, hget, hin, hmin, hfirst⟩
    · subst hb
      cases hw : withinLimit (haversine current x.coords) limitKm with
      | false =>
        simp only [Bool.false_and, Bool.false_eq_true, if_false]
        refine Or.inl ⟨rfl, fun idx hidx q hq => ?_⟩
        rcases hsplit idx hidx with h1 | h1
        · exact hall idx h1 q hq
        · subst h1; rw [hp] at hq; cases hq; exact hw
      | true =>
        simp only [belowBest, Bool.and_self, if_true]
        refine Or.inr ⟨i, x, rfl, hlast, hp, hw, fun idx hidx q hq hwq => ?_,
          fun idx hidx hlt q hq hwq => ?_⟩
        · rcases hsplit idx hidx with h1 | h1
          · rw [hall idx h1 q hq] at hwq; cases hwq
          · subst h1; rw [hp] at hq; cases hq; exact le_refl _
        · rcases hsplit idx hidx with h1 | h1
          · rw [hall idx h1 q hq] at hwq; cases hwq
          · subst h1; exact absurd hlt (lt_irrefl _)
    · subst hb
      by_cases hc : (withinLimit (haversine current x.coords) limitKm
          && belowBest (haversine current x.coords) (some (haversine current p.coords))) = true
      · simp only [hc, if_true]
        rw [Bool.and_eq_true] at hc
        have hlt : haversine current x.coords < haversine current p.coords := by
          simpa [belowBest] using hc.2
        refine Or.inr ⟨i, x, rfl, hlast, hp, hc.1, fun idx hidx q hq hwq => ?_,
          fun idx hidx hidxlt q hq hwq => ?_⟩
        · rcases hsplit idx hidx with h1 | h1
          · exact le_trans (le_of_lt hlt) (hmin idx h1 q hq hwq)
          · subst h1; rw [hp] at hq; cases hq; exact le_refl _
        · rcases hsplit idx hidx with h1 | h1
          · exact lt_of_lt_of_le hlt (hmin idx h1 q hq hwq)
          · subst h1; exact absurd hidxlt (lt_irrefl _)
      · simp only [hc]
        refine Or.inr ⟨j, p, rfl, List.mem_append_left _ hj, hget, hin,
          fun idx hidx q hq hwq => ?_, fun idx hidx hidxlt q hq hwq => ?_⟩
        · rcases hsplit idx hidx with h1 | h1
          · exact hmin idx h1 q hq hwq
          · subst h1; rw [hp] at hq; cases hq
            rw [Bool.and_eq_true, not_and] at hc
            have hnlt := hc hwq
            simp only [belowBest, decide_eq_true_eq, not_lt] at hnlt
            exact hnlt
        · rcases hsplit idx hidx with h1 | h1
          · exact hfirst idx h1 hidxlt q hq hwq
          · subst h1
            exact absurd (hbelow j hj) (not_lt.mpr (le_of_lt hidxlt))

theorem scan_foldl_first_inv (haversine : Coords → Coords → K) (points : List RoutePoint)
    (current : Coords) (limitKm : Option K) (rest seen : List Nat)
    (best : Option RoutePoint × Option K) (hsorted : rest.Pairwise (fun a b => a < b))
    (hbelow : ∀ s ∈ seen, ∀ r ∈ rest, s < r)
    (h : ScanFirstInv haversine points current limitKm seen best) :
    ScanFirstInv haversine points current limitKm (seen ++ rest)
      (rest.foldl (scanStep haversine points current limitKm) best) := by
  induction rest generalizing seen best with
  | nil => simpa using h
  | cons i tl ih =>
    rw [List.foldl_cons]
    rw [List.pairwise_cons] at hsorted
    have hstep := scanStep_first_inv haversine points current limitKm seen best i
      (fun s hs => hbelow s hs i (List.mem_cons_self _ _)) h
    have := ih (seen ++ [i]) _ hsorted.2
      (fun s hs r hr => by
        rcases List.mem_append.mp hs with h1 | h1
        · exact hbelow s h1 r (List.mem_cons_of_mem _ hr)
        · rw [List.mem_singleton] at h1
          rw [h1]
          exact hsorted.1 r hr)
      hstep
    simpa using this

/-- The point chosen by a scan of indices in increasing order: it is within
the limit, no scanned point within the limit is closer, and the scanned points
within the limit at a lower index are strictly farther. -/
theorem scanRemaining_first (haversine : Coords → Coords → K) (points : List RoutePoint)
    (current : Coords) (limitKm : Option K) (remaining : List Nat) (p : RoutePoint)
    (hsorted : remaining.Pairwise (fun a b => a < b))
    (h : (scanRemaining haversine points current limitKm remaining).1 = some p) :
    ∃ j, j ∈ remaining ∧ points[j]? = some p
      ∧ withinLimit (haversine current p.coords) limitKm = true
      ∧ (∀ idx ∈ remaining, ∀ q, points[idx]? = some q →
          withinLimit (haversine current q.coords) limitKm = true →
          haversine current p.coords ≤ haversine current q.coords)
      ∧ (∀ idx ∈ remaining, idx < j → ∀ q, points[idx]? = some q →
          withinLimit (haversine current q.coords) limitKm = true →
          haversine current p.coords < haversine current q.coords) := by
  have hinv := scan_foldl_first_inv haversine points current limitKm remaining []
    (none, none) hsorted (fun s hs => by cases hs)
    (Or.inl ⟨rfl, fun idx hidx => by cases hidx⟩)
  rw [List.nil_append] at hinv
  rcases hinv with ⟨hb, _⟩ | ⟨j, p2, hb, hj, hget, hin, hmin, hfirst⟩
  · unfold scanRemaining at h
    rw [hb] at h
    cases h
  · unfold scanRemaining at h
    rw [hb] at h
    simp only [Option.some.injEq] at h
    subst h
    exact ⟨j, hj, hget, hin, hmin, hfirst⟩

/-- A point outside the limit is strictly farther than a point within it. -/
theorem lt_of_withinLimit (limitKm : Option K) (near far : K)
    (hnear : withinLimit near limitKm = true) (hfar : withinLimit far limitKm = false) :
    near < far := by
  cases limitKm with
  | none => simp [withinLimit] at hfar
  | some l =>
    simp only [withinLimit, decide_eq_true_eq, decide_eq_false_iff_not, not_le] at hnear hfar
    exact lt_of_le_of_lt hnear hfar

/-- The greedy choice of `q` from the position `prev` when the indices
`visited` are already in the route: `q` is within the limit, no point of
`surfPoints` outside `visited` is strictly closer, and the points outside
`visited` that are just as close have an index not below that of `q`. -/
def GreedyStep (haversine : Coords → Coords → K) (surfPoints : List Point)
    (limitKm : Option K) (prev : Coords) (visited : List Nat) (q : RoutePoint) : Prop :=
  withinLimit (haversine prev q.coords) limitKm = true
    ∧ ∀ (idx : Nat) (pt : Point), surfPoints[idx]? = some pt → idx ∉ visited →
        haversine prev q.coords ≤ haversine prev pt.coords
          ∧ (haversine prev pt.coords = haversine prev q.coords → q.index ≤ idx)

/-- Every point of `route` is the greedy choice from its predecessor, the path
starting at `prev` with the indices `visited` already used. -/
def GreedyRoute (haversine : Coords → Coords → K) (surfPoints : List Point)
    (limitKm : Option K) : Coords → List Nat → List RoutePoint → Prop
  | _, _, [] => True
  | prev, visited, q :: rest =>
    GreedyStep haversine surfPoints limitKm prev visited q
      ∧ GreedyRoute haversine surfPoints limitKm q.coords (visited ++ [q.index]) rest

theorem greedyRoute_append (haversine : Coords → Coords → K) (surfPoints : List Point)
    (limitKm : Option K) (prev : Coords) (visited : List Nat) (route : List RoutePoint)
    (b : RoutePoint) (h : GreedyRoute haversine surfPoints limitKm prev visited route)
    (hb : GreedyStep haversine surfPoints limitKm (lastCoords prev route)
      (visited ++ route.map (fun p => p.index)) b) :
    GreedyRoute haversine surfPoints limitKm prev visited (route ++ [b]) := by
  induction route generalizing prev visited with
  | nil =>
    rw [List.map_nil, List.append_nil] at hb
    exact ⟨hb, trivial⟩
  | cons a rest ih =>
    refine ⟨h.1, ih a.coords (visited ++ [a.index]) h.2 ?_⟩
    have hlist : visited ++ [a.index] ++ rest.map (fun p => p.index)
        = visited ++ (a :: rest).map (fun p => p.index) := by
      rw [List.map_cons, List.append_assoc, List.singleton_append]
    rw [hlist]
    exact hb

theorem greedyRoute_getElem (haversine : Coords → Coords → K) (surfPoints : List Point)
    (limitKm : Option K) (prev : Coords) (visited : List Nat) (route : List RoutePoint)
    (h : GreedyRoute haversine surfPoints limitKm prev visited route) (j : Nat)
    (q : RoutePoint) (hq : route[j]? = some q) :
    GreedyStep haversine surfPoints limitKm (lastCoords prev (route.take j))
      (visited ++ (route.take j).map (fun p => p.index)) q := by
  induction route generalizing prev visited j with
  | nil => simp at hq
  | cons a rest ih =>
    cases j with
    | zero =>
      simp only [List.getElem?_cons_zero, Option.some.injEq] at hq
      subst hq
      simpa [lastCoords] using h.1
    | succ i =>
      rw [List.getElem?_cons_succ] at hq
      have := ih a.coords (visited ++ [a.index]) h.2 i hq
      simpa [lastCoords, List.append_assoc] using this

/-- The previous position of the route point at position `j`. -/
theorem lastCoords_take (origin : Coords) (route : List RoutePoint) (j : Nat) (p : RoutePoint)
    (hp : route[j]? = some p) : lastCoords origin (route.take (j + 1)) = p.coords := by
  induction route generalizing origin j with
  | nil => simp at hp
  | cons a rest ih =>
    cases j with
    | zero =>
      simp only [List.getElem?_cons_zero, Option.some.injEq] at hp
      subst hp
      simp [lastCoords]
    | succ i =>
      rw [List.getElem?_cons_succ] at hp
      simpa [lastCoords] using ih a.coords i hp

/-- The invariant of the `while` loop behind the greedy choice. -/
theorem buildLoop_greedy (haversine : Coords → Coords → K) (surfPoints : List Point)
    (limitKm : Option K) (startCoords : Coords) (remaining : List Nat)
    (route : List RoutePoint) (current : Coords)
    (hsorted : remaining.Pairwise (fun a b => a < b))
    (hcover : ∀ (idx : Nat) (pt : Point), surfPoints[idx]? = some pt →
      idx ∈ remaining ∨ idx ∈ route.map (fun p => p.index))
    (hcur : current = lastCoords startCoords route)
    (hroute : GreedyRoute haversine surfPoints limitKm startCoords [] route) :
    GreedyRoute haversine surfPoints limitKm startCoords []
      (buildLoop haversine surfPoints limitKm remaining route current) := by
  induction remaining, route, current using buildLoop.induct haversine surfPoints limitKm with
  | case1 route current =>
    rw [buildLoop_nil]
    exact hroute
  | case2 remaining route current _ hnone =>
    rw [buildLoop_none haversine surfPoints limitKm remaining route current hnone]
    exact hroute
  | case3 remaining route current hne bestPoint hsome ih =>
    rw [buildLoop_some haversine surfPoints limitKm remaining route current bestPoint hne hsome]
    obtain ⟨j, hj, hget, hin, hmin, hfirst⟩ :=
      scanRemaining_first haversine _ current limitKm remaining bestPoint hsorted hsome
    obtain ⟨hindex, _⟩ := indexPoints_canonical surfPoints j bestPoint hget
    apply ih
    · exact hsorted.sublist (List.erase_sublist _ _)
    · intro idx pt hpt
      by_cases hidx : idx = bestPoint.index
      · right
        rw [List.map_append, List.map_singleton]
        exact List.mem_append_right _ (by rw [hidx]; exact List.mem_singleton_self _)
      · rcases hcover idx pt hpt with h1 | h1
        · exact Or.inl ((List.mem_erase_of_ne hidx).mpr h1)
        · right
          rw [List.map_append]
          exact List.mem_append_left _ h1
    · exact (lastCoords_append startCoords route bestPoint).symm
    · apply greedyRoute_append haversine surfPoints limitKm startCoords [] route bestPoint hroute
      rw [← hcur, List.nil_append]
      refine ⟨hin, fun idx pt hpt hnot => ?_⟩
      have hrem : idx ∈ remaining := by
        rcases hcover idx pt hpt with h1 | h1
        · exact h1
        · exact absurd h1 hnot
      have hpoint : (indexPoints surfPoints)[idx]? = some (withIndex pt idx) := by
        rw [indexPoints_getElem?, hpt]
        rfl
      cases hw : withinLimit (haversine current pt.coords) limitKm with
      | true =>
        refine ⟨hmin idx hrem _ hpoint hw, fun htie => ?_⟩
        rw [hindex]
        by_contra hlt
        have hstrict := hfirst idx hrem (not_le.mp hlt) _ hpoint hw
        have hcoords : (withIndex pt idx).coords = pt.coords := rfl
        rw [hcoords, htie] at hstrict
        exact lt_irrefl _ hstrict
      | false =>
        have hstrict := lt_of_withinLimit limitKm _ _ hin hw
        exact ⟨le_of_lt hstrict, fun htie => absurd htie (ne_of_gt hstrict)⟩

/-- **C11** (greedy nearest neighbour, first wins).  Let `r` be the route built
by `buildRoute(limit)` from the start `s`, `q` its point at position `j`, and
`prev` the previous position: `s` for `j = 0`, else the coordinates of
`r[j - 1]`.  Then `q` is at distance `<= limit` from `prev` (for a finite
limit); no point of `surfPoints` whose index is outside `r[0..j-1]` is strictly
closer to `prev` than `q`; and every such point at the same distance as `q` has
an index not below the index of `q`. -/
theorem buildRoute_greedy (haversine : Coords → Coords → K) (surfPoints : List Point)
    (startCoords : Coords) (limitKm : Option K) (j : Nat) (q : RoutePoint) (prev : Coords)
    (hq : (buildRoute haversine surfPoints startCoords limitKm)[j]? = some q)
    (hprev : (j = 0 ∧ prev = startCoords)
      ∨ ∃ i p, j = i + 1
          ∧ (buildRoute haversine surfPoints startCoords limitKm)[i]? = some p
          ∧ prev = p.coords) :
    (∀ l, limitKm = some l → haversine prev q.coords ≤ l)
      ∧ ∀ (idx : Nat) (pt : Point), surfPoints[idx]? = some pt →
          idx ∉ ((buildRoute haversine surfPoints startCoords limitKm).take j).map
            (fun p => p.index) →
          haversine prev q.coords ≤ haversine prev pt.coords
            ∧ (haversine prev pt.coords = haversine prev q.coords → q.index ≤ idx) := by
  have hgreedy : GreedyRoute haversine surfPoints limitKm startCoords []
      (buildRoute haversine surfPoints startCoords limitKm) := by
    unfold buildRoute
    apply buildLoop_greedy haversine surfPoints limitKm startCoords _ [] startCoords
    · rw [indexPoints_map_index]
      exact List.pairwise_lt_range _
    · intro idx pt hpt
      left
      rw [indexPoints_map_index, List.mem_range]
      exact (List.getElem?_eq_some.mp hpt).1
    · rfl
    · trivial
  have hstep := greedyRoute_getElem haversine surfPoints limitKm startCoords [] _ hgreedy j q hq
  have hlast : lastCoords startCoords
      ((buildRoute haversine surfPoints startCoords limitKm).take j) = prev := by
    rcases hprev with ⟨h0, hs⟩ | ⟨i, p, hji, hp, hs⟩
    · rw [h0, hs, List.take_zero]
      rfl
    · rw [hji, hs]
      exact lastCoords_take startCoords _ i p hp
  rw [hlast, List.nil_append] at hstep
  refine ⟨fun l hl => ?_, hstep.2⟩
  have hin := hstep.1
  rw [hl] at hin
  simpa [withinLimit] using hin

end GreedyProofs

/-! ## The worked route again: greedy choice, local optimum, no limit -/

section CrossingChecks

/-- The worked route planned with the distance filter switched off. -/
def crossEnvOff : RouteEnv ℚ := ⟨crossPoints, false, 2, false⟩

theorem buildRoute_greedy_witness :
    (buildRoute crossHaversine crossPoints crossStart (some 2))[1]? = some (crossPoint 1)
      ∧ (∀ l, some (2 : ℚ) = some l →
          crossHaversine (crossPoint 0).coords (crossPoint 1).coords ≤ l)
      ∧ ∀ (idx : Nat) (pt : Point), crossPoints[idx]? = some pt →
          idx ∉ ((buildRoute crossHaversine crossPoints crossStart (some 2)).take 1).map
            (fun p => p.index) →
          crossHaversine (crossPoint 0).coords (crossPoint 1).coords
              ≤ crossHaversine (crossPoint 0).coords pt.coords
            ∧ (crossHaversine (crossPoint 0).coords pt.coords
                = crossHaversine (crossPoint 0).coords (crossPoint 1).coords →
              (crossPoint 1).index ≤ idx) :=
  have hq : (buildRoute crossHaversine crossPoints crossStart (some 2))[1]?
      = some (crossPoint 1) := by rw [cross_buildRoute]; rfl
  have hp : (buildRoute crossHaversine crossPoints crossStart (some 2))[0]?
      = some (crossPoint 0) := by rw [cross_buildRoute]; rfl
  ⟨hq, buildRoute_greedy crossHaversine crossPoints crossStart (some 2) 1 (crossPoint 1)
    (crossPoint 0).coords hq (Or.inr ⟨0, crossPoint 0, rfl, hp, rfl⟩)⟩

theorem twoOpt_local_optimum_witness :
    0 < (twoOpt crossHaversine [crossPoint 0, crossPoint 1, crossPoint 2, crossPoint 3]
          crossStart).length - 2
      ∧ 2 < (twoOpt crossHaversine [crossPoint 0, crossPoint 1, crossPoint 2, crossPoint 3]
          crossStart).length
      ∧ routeDistance crossHaversine
            (twoOptSwap (twoOpt crossHaversine
              [crossPoint 0, crossPoint 1, crossPoint 2, crossPoint 3] crossStart) 0 2)
            crossStart + 0.001
          ≥ routeDistance crossHaversine
            (twoOpt crossHaversine [crossPoint 0, crossPoint 1, crossPoint 2, crossPoint 3]
              crossStart) crossStart :=
  have hlen : (twoOpt crossHaversine [crossPoint 0, crossPoint 1, crossPoint 2, crossPoint 3]
      crossStart).length = 4 := by rw [cross_twoOpt]; rfl
  have hi : 0 < (twoOpt crossHaversine [crossPoint 0, crossPoint 1, crossPoint 2, crossPoint 3]
      crossStart).length - 2 := by rw [hlen]; decide
  have hk : 2 < (twoOpt crossHaversine [crossPoint 0, crossPoint 1, crossPoint 2, crossPoint 3]
      crossStart).length := by rw [hlen]; decide
  ⟨hi, hk, twoOpt_local_optimum crossHaversine
    [crossPoint 0, crossPoint 1, crossPoint 2, crossPoint 3] crossStart 0 2 hi (by decide) hk⟩

end CrossingChecks

/-! ## The same functions when a distance can be NaN

In floating point `haversine` returns NaN when a coordinate is infinite, and
can do so by rounding for a pair of antipodal points.  Every comparison with
NaN is false and every sum with NaN is NaN.  The definitions of this part follow
the source with distances of type `Distance K`; the definitions above are what
they come to when every distance is a number. -/

section NanModel

variable {K : Type} [LinearOrderedField K]

/-- A value returned by `haversine` or `haversineMeters`: a number, or NaN. -/
inductive Distance (K : Type) where
  | number (value : K)
  | nan

/-- The test `Number.isNaN(d)`. -/
def Distance.isNaN (d : Distance K) : Bool :=
  match d with
  | Distance.number _ => false
  | Distance.nan => true

/-- The comparison `a < b` of two values that may be NaN. -/
def Distance.lt (a b : Distance K) : Bool :=
  match a, b with
  | Distance.number x, Distance.number y => decide (x < y)
  | _, _ => false

/-- The sum `a + b` of two values that may be NaN. -/
def Distance.add (a b : Distance K) : Distance K :=
  match a, b with
  | Distance.number x, Distance.number y => Distance.number (x + y)
  | _, _ => Distance.nan

/-- One call of the `remaining.forEach` callback of `buildRoute`.  A NaN `dist`
fails `dist <= limitKm` and leaves the state as it is; a `dist` that passes
both tests is a number and becomes `bestDist`. -/
def scanStepN (haversine : Coords → Coords → Distance K) (points : List RoutePoint)
    (current : Coords) (limitKm : Option K)
    (best : Option RoutePoint × Option K) (idx : Nat) : Option RoutePoint × Option K :=
  match points[idx]? with
  | none => best
  | some point =>
    match haversine current point.coords with
    | Distance.nan => best
    | Distance.number dist =>
      if withinLimit dist limitKm && belowBest dist best.2 then (some point, some dist)
      else best

/-- The whole `remaining.forEach` scan, from `bestPoint = null`,
`bestDist = Infinity`. -/
def scanRemainingN (haversine : Coords → Coords → Distance K) (points : List RoutePoint)
    (current : Coords) (limitKm : Option K) (remaining : List Nat) :
    Option RoutePoint × Option K :=
  remaining.foldl (scanStepN haversine points current limitKm) (none, none)

/-- A point found by the scan is the entry of `points` at a scanned index. -/
theorem scanN_foldl_mem (haversine : Coords → Coords → Distance K)
    (points : List RoutePoint) (current : Coords) (limitKm : Option K)
    (remaining : List Nat) (best : Option RoutePoint × Option K) (p : RoutePoint)
    (h : (remaining.foldl (scanStepN haversine points current limitKm) best).1 = some p) :
    best.1 = some p ∨ ∃ idx ∈ remaining, points[idx]? = some p := by
  induction remaining generalizing best with
  | nil => exact Or.inl h
  | cons i rest ih =>
    rw [List.foldl_cons] at h
    rcases ih _ h with h1 | ⟨idx, hmem, hget⟩
    · unfold scanStepN at h1
      cases hp : points[i]? with
      | none => rw [hp] at h1; exact Or.inl h1
      | some q =>
        rw [hp] at h1
        simp only at h1
        cases hd : haversine current q.coords with
        | nan => rw [hd] at h1; exact Or.inl h1
        | number d =>
          rw [hd] at h1
          simp only at h1
          by_cases hc : (withinLimit d limitKm && belowBest d best.2) = true
          · rw [if_pos hc] at h1
            refine Or.inr ⟨i, List.mem_cons_self _ _, ?_⟩
            rw [hp]; exact h1
          · rw [if_neg hc] at h1
            exact Or.inl h1
    · exact Or.inr ⟨idx, List.mem_cons_of_mem _ hmem, hget⟩

/-- The point chosen by a scan is `points[idx]` for a scanned `idx`, and its
`index` is `idx`. -/
theorem scanRemainingN_mem (haversine : Coords → Coords → Distance K)
    (surfPoints : List Point) (current : Coords) (limitKm : Option K)
    (remaining : List Nat) (p : RoutePoint)
    (h : (scanRemainingN haversine (indexPoints surfPoints) current limitKm remaining).1
      = some p) :
    p.index ∈ remaining ∧ (indexPoints surfPoints)[p.index]? = some p := by
  rcases scanN_foldl_mem haversine _ current limitKm remaining (none, none) p h with
    h1 | ⟨idx, hmem, hget⟩
  · cases h1
  · have hidx := (indexPoints_canonical surfPoints idx p hget).1
    rw [hidx]
    exact ⟨hmem, hget⟩

/-- The `while (remaining.size)` loop of `buildRoute`. -/
def buildLoopN (haversine : Coords → Coords → Distance K) (surfPoints : List Point)
    (limitKm : Option K) (remaining : List Nat) (route : List RoutePoint)
    (current : Coords) : List RoutePoint :=
  if remaining = [] then route
  else
    match h : (scanRemainingN haversine (indexPoints surfPoints) current limitKm remaining).1 with
    | none => route
    | some bestPoint =>
      buildLoopN haversine surfPoints limitKm (remaining.erase bestPoint.index)
        (route ++ [bestPoint]) bestPoint.coords
termination_by remaining.length
decreasing_by
  have hmem := (scanRemainingN_mem haversine surfPoints current limitKm remaining
    bestPoint h).1
  rw [List.length_erase_of_mem hmem]
  have hpos : 0 < remaining.length := List.length_pos_of_mem hmem
  omega

/-- The closure `buildRoute(limitKm)` of `computeRoute(startCoords)`. -/
def buildRouteN (haversine : Coords → Coords → Distance K) (surfPoints : List Point)
    (startCoords : Coords) (limitKm : Option K) : List RoutePoint :=
  buildLoopN haversine surfPoints limitKm
    ((indexPoints surfPoints).map (fun p => p.index)) [] startCoords

/-- The function `routeDistance(route, startCoords)`; a NaN leg makes the sum
NaN. -/
def routeDistanceN (haversine : Coords → Coords → Distance K) (route : List RoutePoint)
    (startCoords : Coords) : Distance K :=
  match route with
  | [] => Distance.number 0
  | first :: _ =>
    (route.zip route.tail).foldl
      (fun distance leg => Distance.add distance (haversine leg.1.coords leg.2.coords))
      (haversine startCoords first.coords)

/-- The body of the inner `for` loop of `twoOpt` at the pair `(i, k)`. -/
def twoOptInnerN (haversine : Coords → Coords → Distance K) (startCoords : Coords) (i : Nat)
    (state : List RoutePoint × Bool) (k : Nat) : List RoutePoint × Bool :=
  let newRoute := twoOptSwap state.1 i k
  let currentDistance := routeDistanceN haversine state.1 startCoords
  let newDistance := routeDistanceN haversine newRoute startCoords
  if Distance.lt (Distance.add newDistance (Distance.number 0.001)) currentDistance then
    (newRoute, true)
  else state

/-- The inner loop `for (k = i + 2; k < bestRoute.length; k += 1)`. -/
def twoOptOuterN (haversine : Coords → Coords → Distance K) (startCoords : Coords)
    (state : List RoutePoint × Bool) (i : Nat) : List RoutePoint × Bool :=
  (List.range' (i + 2) (state.1.length - (i + 2))).foldl
    (twoOptInnerN haversine startCoords i) state

/-- One run of the body of `while (improved)`. -/
def twoOptPassN (haversine : Coords → Coords → Distance K) (startCoords : Coords)
    (bestRoute : List RoutePoint) : List RoutePoint × Bool :=
  (List.range (bestRoute.length - 2)).foldl
    (twoOptOuterN haversine startCoords) (bestRoute, false)

/-- Number of orderings of `route` whose length compares as `<` with the
length of `route`. -/
def shorterCountN (haversine : Coords → Coords → Distance K) (startCoords : Coords)
    (route : List RoutePoint) : Nat :=
  route.permutations.countP
    (fun p => Distance.lt (routeDistanceN haversine p startCoords)
      (routeDistanceN haversine route startCoords))

theorem Distance.lt_iff (a b : Distance K) :
    Distance.lt a b = true ↔ ∃ x y, a = Distance.number x ∧ b = Distance.number y ∧ x < y := by
  cases a with
  | nan => simp [Distance.lt]
  | number x =>
    cases b with
    | nan => simp [Distance.lt]
    | number y => simp [Distance.lt]

theorem Distance.lt_of_add_lt (a b : Distance K)
    (h : Distance.lt (Distance.add a (Distance.number 0.001)) b = true) :
    Distance.lt a b = true := by
  cases a with
  | nan => simp [Distance.add, Distance.lt] at h
  | number x =>
    cases b with
    | nan => simp [Distance.add, Distance.lt] at h
    | number y =>
      simp only [Distance.add, Distance.lt, decide_eq_true_eq] at h ⊢
      have heps : (0 : K) < 0.001 := by norm_num
      linarith

theorem Distance.lt_of_lt_of_lt (a b c : Distance K) (hab : Distance.lt a b = true)
    (hbc : Distance.lt b c = true) : Distance.lt a c = true := by
  obtain ⟨x, y, rfl, rfl, hxy⟩ := (Distance.lt_iff a b).mp hab
  obtain ⟨y2, z, hy, rfl, hyz⟩ := (Distance.lt_iff _ c).mp hbc
  cases hy
  simp only [Distance.lt, decide_eq_true_eq]
  exact lt_trans hxy hyz

theorem Distance.lt_irrefl (a : Distance K) : Distance.lt a a = false := by
  cases a with
  | nan => rfl
  | number x => simp [Distance.lt]

/-- A property of the loop state that every run of the inner loop body at a
pair `i ≤ k` keeps is kept by a whole pass. -/
theorem twoOptPassN_state_preserves (haversine : Coords → Coords → Distance K)
    (startCoords : Coords) (Q : List RoutePoint × Bool → Prop)
    (hstep : ∀ st i k, i ≤ k → Q st → Q (twoOptInnerN haversine startCoords i st k))
    (r : List RoutePoint) (hr : Q (r, false)) : Q (twoOptPassN haversine startCoords r) := by
  have hinner : ∀ (i : Nat) (ks : List Nat) (st : List RoutePoint × Bool),
      (∀ k ∈ ks, i ≤ k) → Q st → Q (ks.foldl (twoOptInnerN haversine startCoords i) st) := by
    intro i ks
    induction ks with
    | nil => intro st _ h; exact h
    | cons k rest ih =>
      intro st hks h
      rw [List.foldl_cons]
      exact ih _ (fun k2 hk2 => hks k2 (List.mem_cons_of_mem _ hk2))
        (hstep st i k (hks k (List.mem_cons_self _ _)) h)
  have houter : ∀ (is : List Nat) (st : List RoutePoint × Bool),
      Q st → Q (is.foldl (twoOptOuterN haversine startCoords) st) := by
    intro is
    induction is with
    | nil => intro st h; exact h
    | cons i rest ih =>
      intro st h
      rw [List.foldl_cons]
      apply ih
      unfold twoOptOuterN
      apply hinner i _ st _ h
      intro k hk
      rw [List.mem_range'_1] at hk
      omega
  exact houter _ _ hr

/-- A pass returns an ordering of its input; it returns the input itself when
it reports no improvement, and a route whose length compares as `<` with the
length of the input when it reports one. -/
theorem twoOptPassN_inv (haversine : Coords → Coords → Distance K) (startCoords : Coords)
    (r : List RoutePoint) :
    (twoOptPassN haversine startCoords r).1.Perm r
      ∧ ((twoOptPassN haversine startCoords r).2 = false →
          (twoOptPassN haversine startCoords r).1 = r)
      ∧ ((twoOptPassN haversine startCoords r).2 = true →
          Distance.lt (routeDistanceN haversine (twoOptPassN haversine startCoords r).1
            startCoords) (routeDistanceN haversine r startCoords) = true) := by
  apply twoOptPassN_state_preserves haversine startCoords
    (fun st => st.1.Perm r ∧ (st.2 = false → st.1 = r)
      ∧ (st.2 = true → Distance.lt (routeDistanceN haversine st.1 startCoords)
          (routeDistanceN haversine r startCoords) = true))
  · intro st i k hik hst
    obtain ⟨hperm, hsame, hlt⟩ := hst
    unfold twoOptInnerN
    simp only
    split
    · rename_i hadopt
      have hstep := Distance.lt_of_add_lt _ _ hadopt
      refine ⟨(twoOptSwap_perm st.1 i k hik).trans hperm, fun hf => (by cases hf), fun _ => ?_⟩
      cases hflag : st.2 with
      | false =>
        rw [hsame hflag] at hstep ⊢
        exact hstep
      | true => exact Distance.lt_of_lt_of_lt _ _ _ hstep (hlt hflag)
    · exact ⟨hperm, hsame, hlt⟩
  · exact ⟨List.Perm.refl _, fun _ => rfl, fun hf => by cases hf⟩

theorem shorterCountN_lt (haversine : Coords → Coords → Distance K) (startCoords : Coords)
    (r r2 : List RoutePoint) (hperm : r2.Perm r)
    (hlt : Distance.lt (routeDistanceN haversine r2 startCoords)
      (routeDistanceN haversine r startCoords) = true) :
    shorterCountN haversine startCoords r2 < shorterCountN haversine startCoords r := by
  unfold shorterCountN
  rw [List.Perm.countP_eq _ (List.Perm.permutations hperm)]
  apply countP_lt_of_imp _ _ _ _ r2
  · exact List.mem_permutations.mpr hperm
  · exact hlt
  · exact Distance.lt_irrefl _
  · intro x _ hx
    exact Distance.lt_of_lt_of_lt _ _ _ hx hlt

/-- The loop `while (improved)` of `twoOpt`. -/
def twoOptLoopN (haversine : Coords → Coords → Distance K) (startCoords : Coords)
    (bestRoute : List RoutePoint) : List RoutePoint :=
  if (twoOptPassN haversine startCoords bestRoute).2 = true then
    twoOptLoopN haversine startCoords (twoOptPassN haversine startCoords bestRoute).1
  else (twoOptPassN haversine startCoords bestRoute).1
termination_by shorterCountN haversine startCoords bestRoute
decreasing_by
  rename_i himproved
  have hinv := twoOptPassN_inv haversine startCoords bestRoute
  exact shorterCountN_lt haversine startCoords bestRoute _ hinv.1 (hinv.2.2 himproved)

/-- The function `twoOpt(route, startCoords)`. -/
def twoOptN (haversine : Coords → Coords → Distance K) (route : List RoutePoint)
    (startCoords : Coords) : List RoutePoint :=
  if route.length < 3 then route
  else twoOptLoopN haversine startCoords route

/-- The function `computeRoute(startCoords)`: the returned route, and the value
of `lastRouteLimitRelaxed` after the call. -/
def computeRouteN (haversine : Coords → Coords → Distance K) (env : RouteEnv K)
    (startCoords : Coords) : List RoutePoint × Bool :=
  if (indexPoints env.surfPoints).length = 0 then ([], env.lastRouteLimitRelaxed)
  else
    let stepLimit : Option K := if env.distanceFilterEnabled then some env.maxStepKm else none
    let route := buildRouteN haversine env.surfPoints startCoords stepLimit
    if route.length = 0 ∧ env.distanceFilterEnabled = true then
      let route := buildRouteN haversine env.surfPoints startCoords none
      if route.length ≤ TWO_OPT_THRESHOLD then (twoOptN haversine route startCoords, true)
      else (route, true)
    else
      if route.length ≤ TWO_OPT_THRESHOLD then (twoOptN haversine route startCoords, false)
      else (route, false)

end NanModel

/-! ## Routing without a step limit -/

section UnlimitedNanProofs

variable {K : Type} [LinearOrderedField K]

omit [LinearOrderedField K] in
theorem Distance.number_of_not_isNaN (d : Distance K) (h : d.isNaN = false) :
    ∃ x, d = Distance.number x := by
  cases d with
  | number x => exact ⟨x, rfl⟩
  | nan => cases h

theorem buildLoopN_nil (haversine : Coords → Coords → Distance K) (surfPoints : List Point)
    (limitKm : Option K) (route : List RoutePoint) (current : Coords) :
    buildLoopN haversine surfPoints limitKm [] route current = route := by
  rw [buildLoopN]
  simp

theorem buildLoopN_none (haversine : Coords → Coords → Distance K) (surfPoints : List Point)
    (limitKm : Option K) (remaining : List Nat) (route : List RoutePoint) (current : Coords)
    (h : (scanRemainingN haversine (indexPoints surfPoints) current limitKm remaining).1
      = none) :
    buildLoopN haversine surfPoints limitKm remaining route current = route := by
  rw [buildLoopN]
  split
  · rfl
  · split
    · rfl
    · rename_i b hb
      rw [h] at hb
      cases hb

theorem buildLoopN_some (haversine : Coords → Coords → Distance K) (surfPoints : List Point)
    (limitKm : Option K) (remaining : List Nat) (route : List RoutePoint) (current : Coords)
    (bestPoint : RoutePoint) (hne : remaining ≠ [])
    (h : (scanRemainingN haversine (indexPoints surfPoints) current limitKm remaining).1
      = some bestPoint) :
    buildLoopN haversine surfPoints limitKm remaining route current
      = buildLoopN haversine surfPoints limitKm (remaining.erase bestPoint.index)
          (route ++ [bestPoint]) bestPoint.coords := by
  rw [buildLoopN]
  split
  · contradiction
  · split
    · rename_i hb
      rw [h] at hb
      cases hb
    · rename_i b hb
      rw [h] at hb
      cases hb
      rfl

/-- Once the scan holds a point it keeps holding one. -/
theorem scanN_foldl_isSome (haversine : Coords → Coords → Distance K)
    (points : List RoutePoint) (current : Coords) (limitKm : Option K) (rest : List Nat)
    (best : Option RoutePoint × Option K) (hbest : best.1 ≠ none) :
    (rest.foldl (scanStepN haversine points current limitKm) best).1 ≠ none := by
  induction rest generalizing best with
  | nil => exact hbest
  | cons i tl ih =>
    rw [List.foldl_cons]
    apply ih
    unfold scanStepN
    cases points[i]? with
    | none => exact hbest
    | some q =>
      simp only
      cases haversine current q.coords with
      | nan => exact hbest
      | number d =>
        simp only
        split
        · simp
        · exact hbest

/-- A scan that chooses nothing: every scanned point is at a NaN distance or
beyond the limit. -/
theorem scanN_foldl_none (haversine : Coords → Coords → Distance K)
    (points : List RoutePoint) (current : Coords) (limitKm : Option K) (rest : List Nat)
    (h : (rest.foldl (scanStepN haversine points current limitKm) (none, none)).1 = none) :
    ∀ idx ∈ rest, ∀ q d, points[idx]? = some q →
      haversine current q.coords = Distance.number d → withinLimit d limitKm = false := by
  induction rest with
  | nil => intro idx hidx; cases hidx
  | cons i tl ih =>
    rw [List.foldl_cons] at h
    have hstep : scanStepN haversine points current limitKm (none, none) i = (none, none)
        ∧ ∀ q d, points[i]? = some q → haversine current q.coords = Distance.number d →
            withinLimit d limitKm = false := by
      unfold scanStepN
      cases hp : points[i]? with
      | none => exact ⟨rfl, fun q d hq => by cases hq⟩
      | some x =>
        simp only
        cases hd : haversine current x.coords with
        | nan =>
          refine ⟨rfl, fun q d hq hqd => ?_⟩
          cases hq
          rw [hd] at hqd
          cases hqd
        | number dx =>
          simp only
          cases hw : withinLimit dx limitKm with
          | false =>
            refine ⟨by simp, fun q d hq hqd => ?_⟩
            cases hq
            rw [hd] at hqd
            cases hqd
            exact hw
          | true =>
            exfalso
            apply scanN_foldl_isSome haversine points current limitKm tl
              (scanStepN haversine points current limitKm (none, none) i) _ h
            unfold scanStepN
            rw [hp]
            simp only
            rw [hd]
            simp [hw, belowBest]
    rw [hstep.1] at h
    intro idx hidx q d hq hqd
    rcases List.mem_cons.mp hidx with h1 | h1
    · subst h1
      exact hstep.2 q d hq hqd
    · exact ih h idx h1 q d hq hqd

/-- Without a limit, and with no NaN among the distances from the current
position and from the points to the points, the loop runs until the set of
unvisited indices is empty. -/
theorem buildLoopN_unlimited (haversine : Coords → Coords → Distance K)
    (surfPoints : List Point) (remaining : List Nat) (route : List RoutePoint)
    (current : Coords) (hvalid : ∀ idx ∈ remaining, idx < surfPoints.length)
    (hcur : ∀ p ∈ surfPoints, (haversine current p.coords).isNaN = false)
    (hpairs : ∀ q ∈ surfPoints, ∀ p ∈ surfPoints,
      (haversine q.coords p.coords).isNaN = false) :
    (buildLoopN haversine surfPoints none remaining route current).Perm
      (route ++ remaining.map (fun i => (indexPoints surfPoints).getD i ⟨"", "", deg 0 0, 0⟩)) := by
  induction remaining, route, current using buildLoopN.induct haversine surfPoints none with
  | case1 route current =>
    rw [buildLoopN_nil, List.map_nil, List.append_nil]
  | case2 remaining route current hne hnone =>
    exfalso
    obtain ⟨idx, hidx⟩ := List.exists_mem_of_ne_nil remaining hne
    have hlt := hvalid idx hidx
    have hget : (indexPoints surfPoints)[idx]? = some (withIndex (surfPoints[idx]) idx) := by
      rw [indexPoints_getElem?, List.getElem?_eq_getElem hlt]
      rfl
    obtain ⟨d, hd⟩ := Distance.number_of_not_isNaN _
      (hcur (surfPoints[idx]) (List.getElem_mem hlt))
    have := scanN_foldl_none haversine _ current none remaining hnone idx hidx _ d hget hd
    simp [withinLimit] at this
  | case3 remaining route current hne bestPoint hsome ih =>
    rw [buildLoopN_some haversine surfPoints none remaining route current bestPoint hne hsome]
    obtain ⟨hmem, hget⟩ := scanRemainingN_mem haversine surfPoints current none remaining
      bestPoint hsome
    have hcanon := (indexPoints_canonical surfPoints bestPoint.index bestPoint hget).2
    have hin : bestPoint.toPoint ∈ surfPoints := mem_of_getElem?_some _ _ _ hcanon
    refine (ih (fun idx hidx => hvalid idx (List.mem_of_mem_erase hidx))
      (fun p hp => hpairs _ hin p hp)).trans ?_
    rw [List.append_assoc, List.singleton_append]
    apply List.Perm.append_left
    have hbest : (indexPoints surfPoints).getD bestPoint.index ⟨"", "", deg 0 0, 0⟩
        = bestPoint := by
      rw [List.getD_eq_getElem?_getD, hget]
      rfl
    have hperm := (List.perm_cons_erase hmem).map
      (fun i => (indexPoints surfPoints).getD i ⟨"", "", deg 0 0, 0⟩)
    rw [List.map_cons, hbest] at hperm
    exact hperm.symm

/-- Without a limit, and with no NaN among the distances from the start and
from the points to the points, `buildRoute` returns all the points of `points`,
each once. -/
theorem buildRouteN_unlimited_perm (haversine : Coords → Coords → Distance K)
    (surfPoints : List Point) (startCoords : Coords)
    (hstart : ∀ p ∈ surfPoints, (haversine startCoords p.coords).isNaN = false)
    (hpairs : ∀ q ∈ surfPoints, ∀ p ∈ surfPoints,
      (haversine q.coords p.coords).isNaN = false) :
    (buildRouteN haversine surfPoints startCoords none).Perm (indexPoints surfPoints) := by
  unfold buildRouteN
  rw [indexPoints_map_index]
  have h := buildLoopN_unlimited haversine surfPoints (List.range surfPoints.length) []
    startCoords (fun idx hidx => List.mem_range.mp hidx) hstart hpairs
  rw [List.nil_append] at h
  have hfull := map_getD_range (indexPoints surfPoints) ⟨"", "", deg 0 0, 0⟩
  rw [indexPoints_length] at hfull
  rw [hfull] at h
  exact h

/-- The route returned by `twoOpt` is a reordering of its input, whatever the
distances. -/
theorem twoOptN_perm_input (haversine : Coords → Coords → Distance K)
    (route : List RoutePoint) (startCoords : Coords) :
    (twoOptN haversine route startCoords).Perm route := by
  have hloop : ∀ r, (twoOptLoopN haversine startCoords r).Perm r := by
    intro r
    induction r using twoOptLoopN.induct haversine startCoords with
    | case1 bestRoute himproved ih =>
      rw [twoOptLoopN, if_pos himproved]
      exact ih.trans (twoOptPassN_inv haversine startCoords bestRoute).1
    | case2 bestRoute hsame =>
      rw [twoOptLoopN, if_neg hsame]
      exact (twoOptPassN_inv haversine startCoords bestRoute).1
  unfold twoOptN
  split
  · exact List.Perm.refl _
  · exact hloop route

/-- **C14, as the code has it** (unlimited routing visits everything).  When
the distance filter is disabled, or the relaxed flag is set after the call, and
no distance from the start to a point of `surfPoints` or from one point of
`surfPoints` to another is NaN, the route returned by `computeRoute` holds
every indexed point of `points` exactly once, and so every point of
`surfPoints` exactly once. -/
theorem computeRouteN_unlimited_perm (haversine : Coords → Coords → Distance K)
    (env : RouteEnv K) (startCoords : Coords)
    (hstart : ∀ p ∈ env.surfPoints, (haversine startCoords p.coords).isNaN = false)
    (hpairs : ∀ q ∈ env.surfPoints, ∀ p ∈ env.surfPoints,
      (haversine q.coords p.coords).isNaN = false)
    (h : env.distanceFilterEnabled = false
      ∨ (computeRouteN haversine env startCoords).2 = true) :
    (computeRouteN haversine env startCoords).1.Perm (indexPoints env.surfPoints)
      ∧ ((computeRouteN haversine env startCoords).1.map RoutePoint.toPoint).Perm
          env.surfPoints := by
  have hfull := buildRouteN_unlimited_perm haversine env.surfPoints startCoords hstart hpairs
  have hopt := twoOptN_perm_input haversine
    (buildRouteN haversine env.surfPoints startCoords none) startCoords
  have hmain : (computeRouteN haversine env startCoords).1.Perm
      (indexPoints env.surfPoints) := by
    by_cases h0 : (indexPoints env.surfPoints).length = 0
    · have hnil : indexPoints env.surfPoints = [] := List.length_eq_zero.mp h0
      simp only [computeRouteN, h0, if_true, hnil]
      exact List.Perm.refl _
    · cases hen : env.distanceFilterEnabled with
      | false =>
        simp only [computeRouteN, h0, hen, if_false, Bool.false_eq_true, and_false]
        split
        · exact hopt.trans hfull
        · exact hfull
      | true =>
        have hflag : (computeRouteN haversine env startCoords).2 = true := by
          rcases h with h1 | h1
          · rw [hen] at h1; cases h1
          · exact h1
        revert hflag
        simp only [computeRouteN, h0, hen, if_true, if_false, and_true]
        split
        · split
          · intro _; exact hopt.trans hfull
          · intro _; exact hfull
        · split <;> intro hc <;> cases hc
  refine ⟨hmain, ?_⟩
  have := hmain.map RoutePoint.toPoint
  rw [indexPoints_map_toPoint] at this
  exact this

end UnlimitedNanProofs

/-! ## The worked route with a fifth row whose latitude cell reads `Infinity` -/

section StrayExample

/-- The function `haversine` on the places of the worked route: their distance
in the table when all four coordinates are finite.  With an infinite coordinate
`toRad` gives an infinite angle, whose sine is NaN, and so is the result. -/
def crossHaversineN (a b : Coords) : Distance ℚ :=
  if a.isFinite && b.isFinite then Distance.number (crossHaversine a b) else Distance.nan

/-- A row whose latitude cell is the text `Infinity`: `Number.parseFloat` gives
`Infinity`, which is not NaN. -/
def strayRow : Row :=
  ⟨some JsNumber.posInf, some (JsNumber.finite 37.6), "Surf Coffee x Khimki", "Москва"⟩

/-- The point that the callback of `loadSurfPoints` makes from `strayRow`. -/
def strayPoint : Point :=
  ⟨"Surf Coffee x Khimki", "Москва", (JsNumber.posInf, JsNumber.finite 37.6)⟩

/-- The four points of the worked route and the stray point, with the distance
filter switched off. -/
def strayEnv : RouteEnv ℚ := ⟨crossPoints ++ [strayPoint], false, 2, false⟩

theorem stray_buildRouteN :
    buildRouteN crossHaversineN (crossPoints ++ [strayPoint]) crossStart none
      = [crossPoint 0, crossPoint 1, crossPoint 2, crossPoint 3] := by
  have hrem : (indexPoints (crossPoints ++ [strayPoint])).map (fun p => p.index)
      = [0, 1, 2, 3, 4] := by decide
  have h0 : (scanRemainingN crossHaversineN (indexPoints (crossPoints ++ [strayPoint]))
      crossStart none [0, 1, 2, 3, 4]).1 = some (crossPoint 0) := by decide!
  have h1 : (scanRemainingN crossHaversineN (indexPoints (crossPoints ++ [strayPoint]))
      (crossPoint 0).coords none [1, 2, 3, 4]).1 = some (crossPoint 1) := by decide!
  have h2 : (scanRemainingN crossHaversineN (indexPoints (crossPoints ++ [strayPoint]))
      (crossPoint 1).coords none [2, 3, 4]).1 = some (crossPoint 2) := by decide!
  have h3 : (scanRemainingN crossHaversineN (indexPoints (crossPoints ++ [strayPoint]))
      (crossPoint 2).coords none [3, 4]).1 = some (crossPoint 3) := by decide!
  have h4 : (scanRemainingN crossHaversineN (indexPoints (crossPoints ++ [strayPoint]))
      (crossPoint 3).coords none [4]).1 = none := by decide!
  have e0 : [0, 1, 2, 3, 4].erase (crossPoint 0).index = [1, 2, 3, 4] := by decide
  have e1 : [1, 2, 3, 4].erase (crossPoint 1).index = [2, 3, 4] := by decide
  have e2 : [2, 3, 4].erase (crossPoint 2).index = [3, 4] := by decide
  have e3 : [3, 4].erase (crossPoint 3).index = [4] := by decide
  unfold buildRouteN
  rw [hrem, buildLoopN_some _ _ _ _ _ _ _ (by decide) h0, e0,
    buildLoopN_some _ _ _ _ _ _ _ (by decide) h1, e1,
    buildLoopN_some _ _ _ _ _ _ _ (by decide) h2, e2,
    buildLoopN_some _ _ _ _ _ _ _ (by decide) h3, e3,
    buildLoopN_none _ _ _ _ _ _ h4]
  rfl

theorem cross_twoOptN :
    twoOptN crossHaversineN [crossPoint 0, crossPoint 1, crossPoint 2, crossPoint 3] crossStart
      = [crossPoint 0, crossPoint 2, crossPoint 1, crossPoint 3] := by
  have hp1 : twoOptPassN crossHaversineN crossStart
      [crossPoint 0, crossPoint 1, crossPoint 2, crossPoint 3]
      = ([crossPoint 0, crossPoint 2, crossPoint 1, crossPoint 3], true) := by decide!
  have hp2 : twoOptPassN crossHaversineN crossStart
      [crossPoint 0, crossPoint 2, crossPoint 1, crossPoint 3]
      = ([crossPoint 0, crossPoint 2, crossPoint 1, crossPoint 3], false) := by decide!
  unfold twoOptN
  rw [if_neg (by decide), twoOptLoopN, hp1, if_pos rfl, twoOptLoopN, hp2, if_neg (by decide)]

theorem stray_computeRouteN :
    computeRouteN crossHaversineN strayEnv crossStart
      = ([crossPoint 0, crossPoint 2, crossPoint 1, crossPoint 3], false) := by
  have hg : buildRouteN crossHaversineN strayEnv.surfPoints crossStart none
      = [crossPoint 0, crossPoint 1, crossPoint 2, crossPoint 3] := stray_buildRouteN
  have h0 : ¬ (indexPoints strayEnv.surfPoints).length = 0 := by decide
  have hen : strayEnv.distanceFilterEnabled = false := rfl
  simp only [computeRouteN, h0, hen, if_false, Bool.false_eq_true, and_false, hg]
  rw [if_pos (by decide), cross_twoOptN]

/-- **C14 fails as stated.**  The row `strayRow` passes the checks of the
callback and gives `strayPoint`, whose latitude is `Infinity`.  Every distance
to it is NaN, and NaN fails `dist <= limitKm` also for `limitKm = Infinity`:
with the filter switched off `computeRoute` returns four of the five points. -/
theorem computeRouteN_omits_point :
    candidateOf strayRow
        = some ((FixedText.infinity false, FixedText.decimal false 3760000), strayPoint)
      ∧ strayEnv.distanceFilterEnabled = false
      ∧ strayPoint ∈ strayEnv.surfPoints
      ∧ strayPoint ∉ (computeRouteN crossHaversineN strayEnv crossStart).1.map
          RoutePoint.toPoint
      ∧ ¬ ((computeRouteN crossHaversineN strayEnv crossStart).1.map
          RoutePoint.toPoint).Perm strayEnv.surfPoints := by
  rw [stray_computeRouteN]
  refine ⟨by decide!, rfl, by decide!, by decide!, fun hperm => ?_⟩
  have hlen := hperm.length_eq
  revert hlen
  decide

theorem computeRouteN_unlimited_perm_witness :
    (∀ p ∈ crossEnvOff.surfPoints, (crossHaversineN crossStart p.coords).isNaN = false)
      ∧ (∀ q ∈ crossEnvOff.surfPoints, ∀ p ∈ crossEnvOff.surfPoints,
          (crossHaversineN q.coords p.coords).isNaN = false)
      ∧ crossEnvOff.distanceFilterEnabled = false
      ∧ (computeRouteN crossHaversineN crossEnvOff crossStart).1.Perm
          (indexPoints crossEnvOff.surfPoints)
      ∧ ((computeRouteN crossHaversineN crossEnvOff crossStart).1.map
          RoutePoint.toPoint).Perm crossEnvOff.surfPoints :=
  have hstart : ∀ p ∈ crossEnvOff.surfPoints,
      (crossHaversineN crossStart p.coords).isNaN = false := by decide
  have hpairs : ∀ q ∈ crossEnvOff.surfPoints, ∀ p ∈ crossEnvOff.surfPoints,
      (crossHaversineN q.coords p.coords).isNaN = false := by decide
  ⟨hstart, hpairs, rfl,
    computeRouteN_unlimited_perm crossHaversineN crossEnvOff crossStart hstart hpairs
      (Or.inl rfl)⟩

end StrayExample

/-! ## The proximity pass when a distance can be NaN -/

section ProximityNan

variable {K : Type} [LinearOrderedField K]

/-- The body of the loop `for (let i = 0; i < result.length; i += 1)` of
`filterClosePoints`.  A NaN `distance` fails `distance < threshold` and leaves
the state as it is. -/
def closestStepN (haversineMeters : Coords → Coords → Distance K) (threshold : K)
    (candidate : Point) (best : Option Nat × Option K) (entry : Nat × Point) :
    Option Nat × Option K :=
  match haversineMeters entry.2.coords candidate.coords with
  | Distance.nan => best
  | Distance.number distance =>
    if decide (distance < threshold) && belowBest distance best.2 then
      (some entry.1, some distance)
    else best

/-- The whole loop over `result` for one candidate. -/
def closestScanN (haversineMeters : Coords → Coords → Distance K) (threshold : K)
    (result : List Point) (candidate : Point) : Option Nat × Option K :=
  result.enum.foldl (closestStepN haversineMeters threshold candidate) (none, none)

/-- One call of the `points.forEach` callback of `filterClosePoints`. -/
def filterStepN (haversineMeters : Coords → Coords → Distance K) (threshold : K)
    (result : List Point) (candidate : Point) : List Point :=
  match (closestScanN haversineMeters threshold result candidate).1 with
  | none => result ++ [candidate]
  | some bestIndex =>
    match result[bestIndex]? with
    | none => result
    | some existing =>
      if shouldReplace existing candidate then result.set bestIndex candidate
      else result

/-- The function `filterClosePoints(points, thresholdMeters)`. -/
def filterClosePointsN (haversineMeters : Coords → Coords → Distance K)
    (points : List Point) (thresholdMeters : Option K) : List Point :=
  let threshold := thresholdMeters.getD 50
  points.foldl (filterStepN haversineMeters threshold) []

/-- The state of the loop once the positions below `m` have been compared with
the candidate: either the test `distance < threshold` failed at each of them,
or the state holds a position at which it passed. -/
def ClosestNanInv (haversineMeters : Coords → Coords → Distance K) (threshold : K)
    (result : List Point) (candidate : Point) (m : Nat)
    (best : Option Nat × Option K) : Prop :=
  (best = (none, none) ∧ ∀ (i : Nat) (p : Point), i < m → result[i]? = some p →
      Distance.lt (haversineMeters p.coords candidate.coords) (Distance.number threshold)
        = false)
  ∨ (∃ j e, best.1 = some j ∧ result[j]? = some e
      ∧ Distance.lt (haversineMeters e.coords candidate.coords) (Distance.number threshold)
          = true)

theorem closestStepN_inv (haversineMeters : Coords → Coords → Distance K) (threshold : K)
    (result : List Point) (candidate : Point) (m : Nat) (x : Point)
    (best : Option Nat × Option K) (hx : result[m]? = some x)
    (h : ClosestNanInv haversineMeters threshold result candidate m best) :
    ClosestNanInv haversineMeters threshold result candidate (m + 1)
      (closestStepN haversineMeters threshold candidate best (m, x)) := by
  unfold closestStepN
  simp only
  cases hd : haversineMeters x.coords candidate.coords with
  | nan =>
    simp only
    rcases h with ⟨hb, hall⟩ | hsome
    · refine Or.inl ⟨hb, fun i p hi hp => ?_⟩
      rcases Nat.lt_succ_iff_lt_or_eq.mp hi with h1 | h1
      · exact hall i p h1 hp
      · subst h1
        rw [hx] at hp
        cases hp
        rw [hd]
        rfl
    · exact Or.inr hsome
  | number d =>
    simp only
    by_cases hc : (decide (d < threshold) && belowBest d best.2) = true
    · rw [if_pos hc]
      rw [Bool.and_eq_true] at hc
      refine Or.inr ⟨m, x, rfl, hx, ?_⟩
      rw [hd]
      simpa [Distance.lt] using hc.1
    · rw [if_neg hc]
      rcases h with ⟨hb, hall⟩ | hsome
      · refine Or.inl ⟨hb, fun i p hi hp => ?_⟩
        rcases Nat.lt_succ_iff_lt_or_eq.mp hi with h1 | h1
        · exact hall i p h1 hp
        · subst h1
          rw [hx] at hp
          cases hp
          rw [hd]
          rw [hb] at hc
          simpa [Distance.lt, belowBest] using hc
      · exact Or.inr hsome

theorem closestN_foldl_inv (haversineMeters : Coords → Coords → Distance K) (threshold : K)
    (result : List Point) (candidate : Point) (rest : List Point) (m : Nat)
    (best : Option Nat × Option K) (hrest : result.drop m = rest)
    (h : ClosestNanInv haversineMeters threshold result candidate m best) :
    ClosestNanInv haversineMeters threshold result candidate (m + rest.length)
      ((rest.enumFrom m).foldl (closestStepN haversineMeters threshold candidate) best) := by
  induction rest generalizing m best with
  | nil => simpa using h
  | cons x tl ih =>
    have hx : result[m]? = some x := by
      have h0 : (result.drop m)[0]? = some x := by rw [hrest, List.getElem?_cons_zero]
      rw [List.getElem?_drop] at h0
      simpa using h0
    have htl : result.drop (m + 1) = tl := by
      rw [← List.tail_drop, hrest]
      rfl
    rw [List.enumFrom_cons, List.foldl_cons]
    have := ih (m + 1) _ htl
      (closestStepN_inv haversineMeters threshold result candidate m x best hx h)
    rw [List.length_cons]
    have hadd : m + (tl.length + 1) = m + 1 + tl.length := by omega
    rw [hadd]
    exact this

/-- The two outcomes of one call of the callback: the candidate is appended
when the test `distance < threshold` fails at every accepted point, else it is
compared by score with an accepted point at which the test passes. -/
theorem filterStepN_cases (haversineMeters : Coords → Coords → Distance K) (threshold : K)
    (result : List Point) (candidate : Point) :
    (filterStepN haversineMeters threshold result candidate = result ++ [candidate]
        ∧ ∀ p ∈ result, Distance.lt (haversineMeters p.coords candidate.coords)
            (Distance.number threshold) = false)
      ∨ ∃ j e, result[j]? = some e
          ∧ Distance.lt (haversineMeters e.coords candidate.coords)
              (Distance.number threshold) = true
          ∧ filterStepN haversineMeters threshold result candidate
              = if shouldReplace e candidate = true then result.set j candidate else result := by
  have hinv := closestN_foldl_inv haversineMeters threshold result candidate result 0
    (none, none) rfl (Or.inl ⟨rfl, fun i p hi => absurd hi (Nat.not_lt_zero i)⟩)
  rw [Nat.zero_add] at hinv
  unfold filterStepN closestScanN List.enum
  rcases hinv with ⟨hb, hall⟩ | ⟨j, e, hb, hje, hwithin⟩
  · refine Or.inl ⟨by rw [hb], fun p hp => ?_⟩
    obtain ⟨i, hi, hget⟩ := List.getElem_of_mem hp
    exact hall i p hi (by rw [List.getElem?_eq_getElem hi, hget])
  · refine Or.inr ⟨j, e, hje, hwithin, ?_⟩
    rw [hb]
    simp only [hje]

theorem filterClosePointsN_append (haversineMeters : Coords → Coords → Distance K)
    (points : List Point) (candidate : Point) (thresholdMeters : Option K) :
    filterClosePointsN haversineMeters (points ++ [candidate]) thresholdMeters
      = filterStepN haversineMeters (thresholdMeters.getD 50)
          (filterClosePointsN haversineMeters points thresholdMeters) candidate := by
  simp [filterClosePointsN, List.foldl_append]

/-- The accepted points are points of the input. -/
theorem filterClosePointsN_mem (haversineMeters : Coords → Coords → Distance K)
    (points : List Point) (thresholdMeters : Option K) :
    ∀ p ∈ filterClosePointsN haversineMeters points thresholdMeters, p ∈ points := by
  induction points using List.reverseRecOn with
  | nil => intro p hp; simp [filterClosePointsN] at hp
  | append_singleton ys c ih =>
    intro p hp
    rw [filterClosePointsN_append] at hp
    rcases filterStepN_cases haversineMeters (thresholdMeters.getD 50)
      (filterClosePointsN haversineMeters ys thresholdMeters) c with
      ⟨heq, _⟩ | ⟨j, e, _, _, heq⟩
    · rw [heq] at hp
      rcases List.mem_append.mp hp with h1 | h1
      · exact List.mem_append_left _ (ih p h1)
      · exact List.mem_append_right _ h1
    · rw [heq] at hp
      split at hp
      · rcases List.mem_or_eq_of_mem_set hp with h1 | h1
        · exact List.mem_append_left _ (ih p h1)
        · rw [h1]; exact List.mem_append_right _ (List.mem_singleton_self _)
      · exact List.mem_append_left _ (ih p hp)

/-- When no point outscores an earlier point at which the test
`distance < threshold` passes, the test fails between every accepted point and
every point accepted after it. -/
theorem filterClosePointsN_pairwise (haversineMeters : Coords → Coords → Distance K)
    (points : List Point) (thresholdMeters : Option K)
    (hscore : points.Pairwise (fun a b =>
      Distance.lt (haversineMeters a.coords b.coords)
        (Distance.number (thresholdMeters.getD 50)) = true →
      entryScore b ≤ entryScore a)) :
    (filterClosePointsN haversineMeters points thresholdMeters).Pairwise
      (fun p q => Distance.lt (haversineMeters p.coords q.coords)
        (Distance.number (thresholdMeters.getD 50)) = false) := by
  induction points using List.reverseRecOn with
  | nil => simp [filterClosePointsN]
  | append_singleton ys c ih =>
    rw [List.pairwise_append] at hscore
    obtain ⟨hys, _, hlast⟩ := hscore
    rw [filterClosePointsN_append]
    rcases filterStepN_cases haversineMeters (thresholdMeters.getD 50)
      (filterClosePointsN haversineMeters ys thresholdMeters) c with
      ⟨heq, hfar⟩ | ⟨j, e, hje, hclose, heq⟩
    · rw [heq, List.pairwise_append]
      refine ⟨ih hys, List.pairwise_singleton _ _, fun p hp q hq => ?_⟩
      rw [List.mem_singleton] at hq
      subst hq
      exact hfar p hp
    · have hmem : e ∈ ys :=
        filterClosePointsN_mem haversineMeters ys thresholdMeters e
          (mem_of_getElem?_some _ j e hje)
      have hle : entryScore c ≤ entryScore e :=
        hlast e hmem c (List.mem_singleton_self _) hclose
      have hno : ¬ shouldReplace e c = true := by
        simp only [shouldReplace, decide_eq_true_eq, not_lt]
        exact hle
      rw [heq, if_neg hno]
      exact ih hys

/-- **C7, as the code has it** (dedup bound).  For every input list in which no
point has a higher quality score than an earlier point that the code's test
finds closer than 50 metres to it (so that no accepted point is ever
replaced), the test `distance < 50` fails between any two points at distinct
positions of the output of `filterClosePoints(points, 50)`, the distance being
taken from the earlier to the later: that distance is at least 50 metres when
it is a number. -/
theorem filterClosePointsN_far_apart (haversineMeters : Coords → Coords → Distance K)
    (points : List Point)
    (hscore : points.Pairwise (fun a b =>
      Distance.lt (haversineMeters a.coords b.coords) (Distance.number 50) = true →
      entryScore b ≤ entryScore a)) :
    ∀ (i j : Nat) (p q : Point), i < j →
      (filterClosePointsN haversineMeters points (some 50))[i]? = some p →
      (filterClosePointsN haversineMeters points (some 50))[j]? = some q →
      Distance.lt (haversineMeters p.coords q.coords) (Distance.number 50) = false
        ∧ ∀ d, haversineMeters p.coords q.coords = Distance.number d → 50 ≤ d := by
  intro i j p q hij hp hq
  have hpair := filterClosePointsN_pairwise haversineMeters points (some 50) hscore
  obtain ⟨hi, hpi⟩ := List.getElem?_eq_some.mp hp
  obtain ⟨hj, hqj⟩ := List.getElem?_eq_some.mp hq
  have hfar := List.pairwise_iff_getElem.mp hpair i j hi hj hij
  rw [hpi, hqj] at hfar
  simp only [Option.getD_some] at hfar
  refine ⟨hfar, fun d hd => ?_⟩
  rw [hd] at hfar
  simpa [Distance.lt] using hfar

end ProximityNan

/-! ## Three entries for one venue, with distances that can be NaN -/

section NearbyNanExample

/-- The function `haversineMeters` on one meridian: the distance of
`meridianMeters` when all coordinates are finite, NaN when one is infinite. -/
def meridianMetersN (a b : Coords) : Distance ℚ :=
  if a.isFinite && b.isFinite then Distance.number (meridianMeters a b) else Distance.nan

/-- **C7 fails as stated.**  The third point is within 50 m of both accepted
points; it is nearest to the first and outscores it (60.5 against 17), so it
takes its place.  The output then holds two points 32 m apart with scores 60.5
and 50. -/
theorem filterClosePointsN_close_pair :
    ∃ p q, filterClosePointsN meridianMetersN nearbyPoints (some 50) = [p, q]
      ∧ Distance.lt (meridianMetersN p.coords q.coords) (Distance.number 50) = true
      ∧ Distance.lt (meridianMetersN q.coords p.coords) (Distance.number 50) = true
      ∧ entryScore p ≠ entryScore q :=
  ⟨⟨"Surf Coffee x Smolenskaya", "Москва, Арбат 1", deg 55.75025 37.6⟩,
    ⟨"Surf Coffee x Arbat", "Москва", deg 55.75054 37.6⟩, by decide!⟩

theorem filterClosePointsN_far_apart_witness :
    (nearbyPoints.take 2).Pairwise (fun a b =>
        Distance.lt (meridianMetersN a.coords b.coords) (Distance.number 50) = true →
        entryScore b ≤ entryScore a)
      ∧ ∀ (i j : Nat) (p q : Point), i < j →
          (filterClosePointsN meridianMetersN (nearbyPoints.take 2) (some 50))[i]? = some p →
          (filterClosePointsN meridianMetersN (nearbyPoints.take 2) (some 50))[j]? = some q →
          Distance.lt (meridianMetersN p.coords q.coords) (Distance.number 50) = false
            ∧ ∀ d, meridianMetersN p.coords q.coords = Distance.number d → 50 ≤ d :=
  have hscore : (nearbyPoints.take 2).Pairwise (fun a b =>
      Distance.lt (meridianMetersN a.coords b.coords) (Distance.number 50) = true →
      entryScore b ≤ entryScore a) := by decide!
  ⟨hscore, filterClosePointsN_far_apart meridianMetersN (nearbyPoints.take 2) hscore⟩

end NearbyNanExample

/-! ## The two readings agree when every distance is a number -/

section Agreement

variable {K : Type} [LinearOrderedField K]

/-- A distance function without NaN, read as one that could return NaN. -/
def asDistance (haversine : Coords → Coords → K) : Coords → Coords → Distance K :=
  fun a b => Distance.number (haversine a b)

theorem scanRemainingN_asDistance (haversine : Coords → Coords → K)
    (points : List RoutePoint) (current : Coords) (limitKm : Option K)
    (remaining : List Nat) :
    scanRemainingN (asDistance haversine) points current limitKm remaining
      = scanRemaining haversine points current limitKm remaining := by
  have hstep : scanStepN (asDistance haversine) points current limitKm
      = scanStep haversine points current limitKm := by
    funext best idx
    unfold scanStepN scanStep asDistance
    cases points[idx]? <;> rfl
  unfold scanRemainingN scanRemaining
  rw [hstep]

theorem buildLoopN_asDistance (haversine : Coords → Coords → K) (surfPoints : List Point)
    (limitKm : Option K) (remaining : List Nat) (route : List RoutePoint)
    (current : Coords) :
    buildLoopN (asDistance haversine) surfPoints limitKm remaining route current
      = buildLoop haversine surfPoints limitKm remaining route current := by
  induction remaining, route, current using buildLoop.induct haversine surfPoints limitKm with
  | case1 route current =>
    rw [buildLoop_nil, buildLoopN_nil]
  | case2 remaining route current _ hnone =>
    rw [buildLoop_none haversine surfPoints limitKm remaining route current hnone,
      buildLoopN_none (asDistance haversine) surfPoints limitKm remaining route current
        (by rw [scanRemainingN_asDistance]; exact hnone)]
  | case3 remaining route current hne bestPoint hsome ih =>
    rw [buildLoop_some haversine surfPoints limitKm remaining route current bestPoint hne hsome,
      buildLoopN_some (asDistance haversine) surfPoints limitKm remaining route current
        bestPoint hne (by rw [scanRemainingN_asDistance]; exact hsome)]
    exact ih

theorem buildRouteN_asDistance (haversine : Coords → Coords → K) (surfPoints : List Point)
    (startCoords : Coords) (limitKm : Option K) :
    buildRouteN (asDistance haversine) surfPoints startCoords limitKm
      = buildRoute haversine surfPoints startCoords limitKm := by
  unfold buildRouteN buildRoute
  exact buildLoopN_asDistance haversine surfPoints limitKm _ [] startCoords

theorem routeDistanceN_asDistance (haversine : Coords → Coords → K)
    (route : List RoutePoint) (startCoords : Coords) :
    routeDistanceN (asDistance haversine) route startCoords
      = Distance.number (routeDistance haversine route startCoords) := by
  have hfold : ∀ (legs : List (RoutePoint × RoutePoint)) (acc : K),
      legs.foldl (fun distance leg =>
          Distance.add distance (asDistance haversine leg.1.coords leg.2.coords))
        (Distance.number acc)
      = Distance.number (legs.foldl
          (fun distance leg => distance + haversine leg.1.coords leg.2.coords) acc) := by
    intro legs
    induction legs with
    | nil => intro acc; rfl
    | cons leg rest ih =>
      intro acc
      rw [List.foldl_cons, List.foldl_cons]
      exact ih _
  cases route with
  | nil => rfl
  | cons first rest =>
    unfold routeDistanceN routeDistance
    exact hfold _ _

theorem twoOptPassN_asDistance (haversine : Coords → Coords → K) (startCoords : Coords)
    (bestRoute : List RoutePoint) :
    twoOptPassN (asDistance haversine) startCoords bestRoute
      = twoOptPass haversine startCoords bestRoute := by
  have hinner : ∀ i, twoOptInnerN (asDistance haversine) startCoords i
      = twoOptInner haversine startCoords i := by
    intro i
    funext st k
    unfold twoOptInnerN twoOptInner
    simp only [routeDistanceN_asDistance, Distance.add, Distance.lt, decide_eq_true_eq]
  have houter : twoOptOuterN (asDistance haversine) startCoords
      = twoOptOuter haversine startCoords := by
    funext st i
    unfold twoOptOuterN twoOptOuter
    rw [hinner]
  unfold twoOptPassN twoOptPass
  rw [houter]

theorem twoOptN_asDistance (haversine : Coords → Coords → K) (route : List RoutePoint)
    (startCoords : Coords) :
    twoOptN (asDistance haversine) route startCoords = twoOpt haversine route startCoords := by
  have hloop : ∀ r, twoOptLoopN (asDistance haversine) startCoords r
      = twoOptLoop haversine startCoords r := by
    intro r
    induction r using twoOptLoop.induct haversine startCoords with
    | case1 bestRoute himproved ih =>
      rw [twoOptLoop, if_pos himproved, twoOptLoopN, twoOptPassN_asDistance,
        if_pos himproved]
      exact ih
    | case2 bestRoute hsame =>
      rw [twoOptLoop, if_neg hsame, twoOptLoopN, twoOptPassN_asDistance, if_neg hsame]
  unfold twoOptN twoOpt
  rw [hloop]

/-- With a distance function that never returns NaN the second reading of
`computeRoute` is the first. -/
theorem computeRouteN_asDistance (haversine : Coords → Coords → K) (env : RouteEnv K)
    (startCoords : Coords) :
    computeRouteN (asDistance haversine) env startCoords
      = computeRoute haversine env startCoords := by
  unfold computeRouteN computeRoute
  simp only [buildRouteN_asDistance, twoOptN_asDistance]

/-- With a distance function that never returns NaN the second reading of
`filterClosePoints` is the first. -/
theorem filterClosePointsN_asDistance (haversineMeters : Coords → Coords → K)
    (points : List Point) (thresholdMeters : Option K) :
    filterClosePointsN (asDistance haversineMeters) points thresholdMeters
      = filterClosePoints haversineMeters points thresholdMeters := by
  have hstep : ∀ threshold, filterStepN (asDistance haversineMeters) threshold
      = filterStep haversineMeters threshold := by
    intro threshold
    funext result candidate
    have hscan : closestScanN (asDistance haversineMeters) threshold result candidate
        = closestScan haversineMeters threshold result candidate := by
      have hclosest : closestStepN (asDistance haversineMeters) threshold candidate
          = closestStep haversineMeters threshold candidate := by
        funext best entry
        rfl
      unfold closestScanN closestScan
      rw [hclosest]
    unfold filterStepN filterStep
    rw [hscan]
  unfold filterClosePointsN filterClosePoints
  simp only [hstep]

end Agreement

end SurfRoute
